import Mathlib

/-!
Shallow embedding of `src/dijkstra_visualizer.py` (class `DijkstraVisualizer`).

The Python engine stores a graph (a dict mapping node identifiers to dicts of
neighbor identifiers and numeric edge weights) and a `steps` list that `run`
appends trace events to.  `run(start_node)` executes Dijkstra's algorithm with
a lazy-deletion `heapq` priority queue of `(distance, node)` tuples.

Modelling decisions:
* node identifiers are `String`, as in the reference example graph; Python
  compares tuple entries lexicographically and strings by code points, which
  is the order of Lean's `String` `<`;
* dicts are association lists in insertion order (`List (key × value)`);
  Python dict lookup and in-place assignment act on the (unique) occurrence
  of a key, modelled by first-occurrence `List.lookup` and `setD`;
* edge weights are `Nat`: the documented contract requires non-negative
  weights, and the claims under verification only concern such graphs;
* `float('inf')` is the `none` of `Option Nat` (`Dist` below); every distance
  value the algorithm computes is an exact natural number, so no floating
  point behavior is observable on the graphs in scope;
* the `heapq` binary heap is modelled by the list of its entries: `heappush`
  conses an entry, `heappop` removes one least entry under the tuple order
  `pqLt`.  Only the multiset of entries and the minimality of the popped
  element are observable, so this is behaviorally exact;
* a Python `KeyError` is the `PyErr.keyError` value; `run` is modelled as a
  function from the engine's pre-existing `steps` buffer and the start node
  to `Option (EState × Option PyErr)`, where the outer `Option` is fuel
  exhaustion (shown unreachable), the returned `EState` is the engine state
  when `run` stops (normally or by an uncaught exception), and the
  `Option PyErr` is the uncaught exception if any;
* Python's `set` iterates in an unspecified order; the visited set is
  modelled as its insertion-ordered list, which carries no less information.
-/

namespace DijkstraViz

abbrev Node := String

abbrev Weight := Nat

/-- Distance table values: `none` models the `float('inf')` sentinel. -/
abbrev Dist := Option Nat

/-- Adjacency-list graph: `self.graph` in insertion order. -/
abbrev Graph := List (Node × List (Node × Weight))

/-- Distance table: the `distances` dict in insertion order. -/
abbrev DistTable := List (Node × Dist)

/-- Trace events appended to `self.steps`.  `visit_node` carries the current
node, the snapshot `distances.copy()` and `list(visited)`; `relax_edge`
carries `from` and `to` (here `src` and `tgt`, since both are reserved words
in Lean), `updated_distance` and the snapshot `distances.copy()`. -/
inductive Step where
  | visit_node (current_node : Node) (distances : DistTable) (visited_nodes : List Node)
  | relax_edge (src : Node) (tgt : Node) (updated_distance : Nat) (distances : DistTable)
deriving DecidableEq

/-- Uncaught Python exceptions observable from `run`: dict lookups on a
missing key raise `KeyError(key)`. -/
inductive PyErr where
  | keyError (key : Node)
deriving DecidableEq

/-- Engine working state during one `run` call: the `distances` dict, the
`visited` set (in insertion order), the `priority_queue` entry multiset and
the engine-owned `self.steps` buffer. -/
structure EState where
  distances : DistTable
  visited : List Node
  pq : List (Nat × Node)
  steps : List Step
deriving DecidableEq

/-- Python dict assignment `d[k] = v`: replace the value at the first
occurrence of `k`, or append a fresh entry at the end. -/
def setD (l : DistTable) (k : Node) (v : Dist) : DistTable :=
  match l with
  | [] => [(k, v)]
  | (k', v') :: rest => if k' = k then (k, v) :: rest else (k', v') :: setD rest k v

/-- Python comparison `new_distance < distances[neighbor]` where the right
side may be `float('inf')`. -/
def distLtB (n : Nat) : Dist → Bool
  | none => true
  | some m => decide (n < m)

/-- The strict order on `(distance, node)` tuples used by `heapq`: Python
tuple comparison is lexicographic, with node identifiers compared when the
distances tie. -/
def pqLt (a b : Nat × Node) : Bool :=
  decide (a.1 < b.1) || (decide (a.1 = b.1) && decide (a.2 < b.2))

/-- `heapq.heappop`: remove and return one least entry under `pqLt`.
Returns `none` exactly when the queue is empty. -/
def popMin : List (Nat × Node) → Option ((Nat × Node) × List (Nat × Node))
  | [] => none
  | x :: xs =>
    match popMin xs with
    | none => some (x, [])
    | some (m, r) => if pqLt m x then some (m, x :: r) else some (x, xs)

/-- The relaxation loop `for neighbor, weight in self.graph[current_node].items()`.
Returns the state after the loop together with the uncaught `KeyError`, if the
lookup `distances[neighbor]` failed.  `currentDistance` is the popped
`current_distance` variable. -/
def relaxEdges (currentNode : Node) (currentDistance : Nat) :
    List (Node × Weight) → EState → EState × Option PyErr
  | [], st => (st, none)
  | (neighbor, weight) :: rest, st =>
    if st.visited.contains neighbor then
      relaxEdges currentNode currentDistance rest st
    else
      match st.distances.lookup neighbor with
      | none => (st, some (.keyError neighbor))
      | some dOld =>
        let newDistance := currentDistance + weight
        if distLtB newDistance dOld then
          let distances' := setD st.distances neighbor (some newDistance)
          relaxEdges currentNode currentDistance rest
            { distances := distances'
              visited := st.visited
              pq := (newDistance, neighbor) :: st.pq
              steps := st.steps ++ [.relax_edge currentNode neighbor newDistance distances'] }
        else
          relaxEdges currentNode currentDistance rest st

/-- Outcome of one iteration of the `while priority_queue:` loop. -/
inductive StepRes where
  | done (st : EState)
  | cont (st : EState)
  | fail (st : EState) (e : PyErr)
deriving DecidableEq

/-- One iteration of the main loop: pop, skip if visited, otherwise mark
visited, record the `visit_node` event, and relax the current node's edges.
`fail` is an uncaught `KeyError` (from `self.graph[current_node]` or from
`distances[neighbor]`); `done` is the loop guard failing on an empty queue. -/
def loopStep (g : Graph) (st : EState) : StepRes :=
  match popMin st.pq with
  | none => .done st
  | some ((currentDistance, currentNode), pq') =>
    let st1 : EState := { st with pq := pq' }
    if st1.visited.contains currentNode then .cont st1
    else
      let visited' := st1.visited ++ [currentNode]
      let st2 : EState :=
        { st1 with
          visited := visited'
          steps := st1.steps ++ [.visit_node currentNode st1.distances visited'] }
      match g.lookup currentNode with
      | none => .fail st2 (.keyError currentNode)
      | some neighbors =>
        match relaxEdges currentNode currentDistance neighbors st2 with
        | (st3, none) => .cont st3
        | (st3, some e) => .fail st3 e

/-- The `while priority_queue:` loop, driven by fuel.  `none` means the fuel
ran out before the loop finished; `runFuel` below always provides enough. -/
def dloop (g : Graph) : Nat → EState → Option (EState × Option PyErr)
  | 0, _ => none
  | fuel + 1, st =>
    match loopStep g st with
    | .done st' => some (st', none)
    | .fail st' e => some (st', some e)
    | .cont st' => dloop g fuel st'

/-- Out-degree of a node: the length of its adjacency list, `0` if absent. -/
def outdeg (g : Graph) (k : Node) : Nat :=
  match g.lookup k with
  | none => 0
  | some adj => adj.length

/-- An upper bound on the remaining loop iterations: pending queue entries
plus the total out-degree of unvisited distance-table nodes. -/
def remFuel (g : Graph) (st : EState) : Nat :=
  st.pq.length +
    (((st.distances.map Prod.fst).filter (fun k => !st.visited.contains k)).map
      (outdeg g)).sum

/-- The state at the top of `run`: `distances` initialized to infinity for
every graph key and `0` for the start node, empty visited set, the frontier
`[(0, start_node)]`, and the engine's pre-existing `steps` buffer. -/
def initState (g : Graph) (startNode : Node) (steps0 : List Step) : EState :=
  { distances := setD (g.map (fun p => (p.1, (none : Dist)))) startNode (some 0)
    visited := []
    pq := [(0, startNode)]
    steps := steps0 }

/-- Fuel that provably suffices for the whole loop. -/
def runFuel (g : Graph) (st : EState) : Nat := remFuel g st + 1

/-- `DijkstraVisualizer.run(start_node)` on an engine holding graph `g` and
steps buffer `steps0`.  On success the result is `some (st, none)`: the final
distance table is `st.distances`, and the returned `self.steps` list is
`st.steps`.  An uncaught `KeyError` is `some (st, some e)` with `st` the
engine state at the raise.  `none` (fuel exhaustion) never occurs. -/
def run (g : Graph) (startNode : Node) (steps0 : List Step) :
    Option (EState × Option PyErr) :=
  let st := initState g startNode steps0
  dloop g (runFuel g st) st

/-- The example graph from the module docstring and `__main__` block. -/
def exGraph : Graph :=
  [("A", [("B", 4), ("C", 1)]),
   ("B", [("A", 4), ("C", 2), ("D", 5)]),
   ("C", [("A", 1), ("B", 2), ("D", 8)]),
   ("D", [("B", 5), ("C", 8)])]

/-- The disconnected example graph from the spec: `{A:{B:1}, B:{}, C:{}}`. -/
def exDisc : Graph := [("A", [("B", 1)]), ("B", []), ("C", [])]

/-- A single-node graph, used to instantiate hypotheses concretely. -/
def exOne : Graph := [("A", [])]

/-! ### Association-list lemmas -/

theorem lookup_isSome_of_mem {α : Type} {l : List (Node × α)} {k : Node}
    (h : k ∈ l.map Prod.fst) : ∃ v, l.lookup k = some v := by
  induction l with
  | nil => simp at h
  | cons p rest ih =>
    rcases p with ⟨k', v'⟩
    by_cases hk : k = k'
    · subst hk
      exact ⟨v', by simp [List.lookup]⟩
    · simp only [List.map_cons, List.mem_cons] at h
      rcases h with h | h
      · exact absurd h hk
      · rcases ih h with ⟨v, hv⟩
        exact ⟨v, by simp [List.lookup, beq_false_of_ne hk, hv]⟩

theorem mem_of_lookup_isSome {α : Type} {l : List (Node × α)} {k : Node} {v : α}
    (h : l.lookup k = some v) : k ∈ l.map Prod.fst := by
  induction l with
  | nil => simp [List.lookup] at h
  | cons p rest ih =>
    rcases p with ⟨k', v'⟩
    by_cases hk : k = k'
    · simp [hk]
    · simp only [List.lookup, beq_false_of_ne hk] at h
      simp [ih h]

theorem setD_map_fst_of_mem {l : DistTable} {k : Node} (v : Dist)
    (h : k ∈ l.map Prod.fst) : (setD l k v).map Prod.fst = l.map Prod.fst := by
  induction l with
  | nil => simp at h
  | cons p rest ih =>
    rcases p with ⟨k', v'⟩
    by_cases hk : k' = k
    · simp [setD, hk]
    · simp only [List.map_cons, List.mem_cons] at h
      rcases h with h | h
      · exact absurd h.symm hk
      · simp [setD, hk, ih h]

theorem setD_map_fst_of_not_mem {l : DistTable} {k : Node} (v : Dist)
    (h : k ∉ l.map Prod.fst) : (setD l k v).map Prod.fst = l.map Prod.fst ++ [k] := by
  induction l with
  | nil => simp [setD]
  | cons p rest ih =>
    rcases p with ⟨k', v'⟩
    simp only [List.map_cons, List.mem_cons, not_or] at h
    simp [setD, Ne.symm h.1, ih h.2]

theorem lookup_setD_self (l : DistTable) (k : Node) (v : Dist) :
    (setD l k v).lookup k = some v := by
  induction l with
  | nil => simp [setD, List.lookup]
  | cons p rest ih =>
    rcases p with ⟨k', v'⟩
    by_cases hk : k' = k
    · simp [setD, hk, List.lookup]
    · simp [setD, hk, List.lookup, beq_false_of_ne (Ne.symm hk), ih]

theorem lookup_setD_ne (l : DistTable) {k k' : Node} (v : Dist) (h : k' ≠ k) :
    (setD l k v).lookup k' = l.lookup k' := by
  induction l with
  | nil => simp [setD, List.lookup, beq_false_of_ne h]
  | cons p rest ih =>
    rcases p with ⟨k₀, v₀⟩
    by_cases hk : k₀ = k
    · subst hk
      simp [setD, List.lookup, beq_false_of_ne h, beq_false_of_ne (Ne.symm (by exact h))]
    · simp only [setD, if_neg hk]
      by_cases hk' : k' = k₀
      · subst hk'
        simp [List.lookup]
      · simp [List.lookup, beq_false_of_ne hk', ih]

/-! ### Order and priority-queue lemmas -/

theorem pqLt_irrefl (a : Nat × Node) : pqLt a a = false := by
  simp [pqLt]

theorem pqLt_asymm {a b : Nat × Node} (h : pqLt a b = true) : pqLt b a = false := by
  simp only [pqLt, Bool.or_eq_true, Bool.and_eq_true, decide_eq_true_eq] at h ⊢
  simp only [Bool.or_eq_false_iff, Bool.and_eq_false_iff, decide_eq_false_iff_not]
  rcases h with h | ⟨h1, h2⟩
  · exact ⟨by omega, Or.inl (by omega)⟩
  · exact ⟨by omega, Or.inr (not_lt_of_gt h2)⟩

theorem pqLt_trans_not {y x m : Nat × Node} (h1 : pqLt y x = true)
    (h2 : pqLt m x = false) : pqLt y m = true := by
  simp only [pqLt, Bool.or_eq_true, Bool.and_eq_true, decide_eq_true_eq] at h1 ⊢
  simp only [pqLt, Bool.or_eq_false_iff, Bool.and_eq_false_iff,
    decide_eq_false_iff_not] at h2
  rcases h2 with ⟨h2a, h2b⟩
  rcases h1 with h1 | ⟨h1a, h1b⟩
  · rcases h2b with h | h
    · left; omega
    · rcases Nat.lt_or_ge y.1 m.1 with hc | hc
      · left; exact hc
      · right
        refine ⟨by omega, ?_⟩
        have hxm : x.2 ≤ m.2 := le_of_not_lt h
        have : x.1 = m.1 := by omega
        omega
  · rcases h2b with h | h
    · left; omega
    · rcases Nat.lt_or_ge y.1 m.1 with hc | hc
      · left; exact hc
      · right
        have hym : y.1 = m.1 := by omega
        refine ⟨hym, lt_of_lt_of_le h1b (le_of_not_lt h)⟩

theorem popMin_eq_none {l : List (Nat × Node)} : popMin l = none ↔ l = [] := by
  cases l with
  | nil => simp [popMin]
  | cons x xs =>
    simp only [popMin]
    cases h : popMin xs with
    | none => simp
    | some p =>
      rcases p with ⟨m, r⟩
      by_cases hlt : pqLt m x <;> simp [hlt]

theorem popMin_mem {l : List (Nat × Node)} {m : Nat × Node} {r : List (Nat × Node)}
    (h : popMin l = some (m, r)) : m ∈ l := by
  induction l generalizing m r with
  | nil => simp [popMin] at h
  | cons x xs ih =>
    simp only [popMin] at h
    cases hx : popMin xs with
    | none =>
      rw [hx] at h
      simp only [Option.some.injEq, Prod.mk.injEq] at h
      simp [h.1.symm]
    | some p =>
      rcases p with ⟨m', r'⟩
      rw [hx] at h
      by_cases hlt : pqLt m' x
      · simp only [hlt, if_true, Option.some.injEq, Prod.mk.injEq] at h
        rcases h with ⟨h1, _⟩
        exact List.mem_cons_of_mem _ (h1 ▸ ih hx)
      · rw [Bool.not_eq_true] at hlt
        simp only [hlt, Bool.false_eq_true, if_false, Option.some.injEq, Prod.mk.injEq] at h
        simp [h.1.symm]

theorem popMin_min {l : List (Nat × Node)} {m : Nat × Node} {r : List (Nat × Node)}
    (h : popMin l = some (m, r)) : ∀ x ∈ l, pqLt x m = false := by
  induction l generalizing m r with
  | nil => simp [popMin] at h
  | cons x xs ih =>
    simp only [popMin] at h
    cases hx : popMin xs with
    | none =>
      rw [hx] at h
      simp only [Option.some.injEq, Prod.mk.injEq] at h
      have hxs : xs = [] := popMin_eq_none.mp hx
      subst hxs
      intro y hy
      simp only [List.mem_singleton] at hy
      subst hy
      exact h.1 ▸ pqLt_irrefl y
    | some p =>
      rcases p with ⟨m', r'⟩
      rw [hx] at h
      by_cases hlt : pqLt m' x
      · simp only [hlt, if_true, Option.some.injEq, Prod.mk.injEq] at h
        rcases h with ⟨h1, _⟩
        subst h1
        intro y hy
        rcases List.mem_cons.mp hy with hy | hy
        · subst hy
          exact pqLt_asymm hlt
        · exact ih hx y hy
      · rw [Bool.not_eq_true] at hlt
        simp only [hlt, Bool.false_eq_true, if_false, Option.some.injEq, Prod.mk.injEq] at h
        rcases h with ⟨h1, _⟩
        subst h1
        intro y hy
        rcases List.mem_cons.mp hy with hy | hy
        · subst hy
          exact pqLt_irrefl _
        · have hym := ih hx y hy
          by_cases hc : pqLt y x
          · have := pqLt_trans_not hc hlt
            rw [this] at hym
            exact absurd hym (by simp)
          · exact Bool.eq_false_iff.mpr (by simpa using hc)

theorem popMin_length {l : List (Nat × Node)} {m : Nat × Node} {r : List (Nat × Node)}
    (h : popMin l = some (m, r)) : l.length = r.length + 1 := by
  induction l generalizing m r with
  | nil => simp [popMin] at h
  | cons x xs ih =>
    simp only [popMin] at h
    cases hx : popMin xs with
    | none =>
      rw [hx] at h
      simp only [Option.some.injEq, Prod.mk.injEq] at h
      have hxs : xs = [] := popMin_eq_none.mp hx
      subst hxs
      simp [← h.2]
    | some p =>
      rcases p with ⟨m', r'⟩
      rw [hx] at h
      by_cases hlt : pqLt m' x
      · simp only [hlt, if_true, Option.some.injEq, Prod.mk.injEq] at h
        rcases h with ⟨_, h2⟩
        subst h2
        simp [ih hx]
      · rw [Bool.not_eq_true] at hlt
        simp only [hlt, Bool.false_eq_true, if_false, Option.some.injEq, Prod.mk.injEq] at h
        simp [← h.2]

theorem popMin_rest_subset {l : List (Nat × Node)} {m : Nat × Node}
    {r : List (Nat × Node)} (h : popMin l = some (m, r)) : ∀ x ∈ r, x ∈ l := by
  induction l generalizing m r with
  | nil => simp [popMin] at h
  | cons x xs ih =>
    simp only [popMin] at h
    cases hx : popMin xs with
    | none =>
      rw [hx] at h
      simp only [Option.some.injEq, Prod.mk.injEq] at h
      rw [← h.2]
      intro y hy
      simp at hy
    | some p =>
      rcases p with ⟨m', r'⟩
      rw [hx] at h
      by_cases hlt : pqLt m' x
      · simp only [hlt, if_true, Option.some.injEq, Prod.mk.injEq] at h
        rcases h with ⟨_, h2⟩
        subst h2
        intro y hy
        rcases List.mem_cons.mp hy with hy | hy
        · simp [hy]
        · exact List.mem_cons_of_mem _ (ih hx y hy)
      · rw [Bool.not_eq_true] at hlt
        simp only [hlt, Bool.false_eq_true, if_false, Option.some.injEq, Prod.mk.injEq] at h
        rw [← h.2]
        intro y hy
        exact List.mem_cons_of_mem _ hy

theorem popMin_mem_rest {l : List (Nat × Node)} {m : Nat × Node}
    {r : List (Nat × Node)} (h : popMin l = some (m, r)) :
    ∀ x ∈ l, x ≠ m → x ∈ r := by
  induction l generalizing m r with
  | nil => simp [popMin] at h
  | cons x xs ih =>
    simp only [popMin] at h
    cases hx : popMin xs with
    | none =>
      rw [hx] at h
      simp only [Option.some.injEq, Prod.mk.injEq] at h
      have hxs : xs = [] := popMin_eq_none.mp hx
      subst hxs
      intro y hy hne
      simp only [List.mem_singleton] at hy
      exact absurd (hy.trans h.1) hne
    | some p =>
      rcases p with ⟨m', r'⟩
      rw [hx] at h
      by_cases hlt : pqLt m' x
      · simp only [hlt, if_true, Option.some.injEq, Prod.mk.injEq] at h
        rcases h with ⟨h1, h2⟩
        subst h1; subst h2
        intro y hy hne
        rcases List.mem_cons.mp hy with hy | hy
        · simp [hy]
        · exact List.mem_cons_of_mem _ (ih hx y hy hne)
      · rw [Bool.not_eq_true] at hlt
        simp only [hlt, Bool.false_eq_true, if_false, Option.some.injEq, Prod.mk.injEq] at h
        rcases h with ⟨h1, h2⟩
        subst h1; subst h2
        intro y hy hne
        rcases List.mem_cons.mp hy with hy | hy
        · exact absurd hy hne
        · exact hy

/-! ### Shortest-path semantics and trace well-formedness -/

/-- Cost-indexed reachability: `Reaches g s v c` holds when the graph has a
directed path from `s` to `v` whose edge weights sum to `c`. -/
inductive Reaches (g : Graph) (s : Node) : Node → Nat → Prop where
  | base : Reaches g s s 0
  | step {u v : Node} {c w : Nat} {adj : List (Node × Weight)} :
      Reaches g s u c → g.lookup u = some adj → (v, w) ∈ adj → Reaches g s v (c + w)

/-- Pointwise order on distance values, with the infinity sentinel `none` on
top. -/
def distLe (a b : Dist) : Prop :=
  match a, b with
  | _, none => True
  | some x, some y => x ≤ y
  | none, some _ => False

/-- Well-formedness of a trace segment `l` relative to the distance table:
starting from table `D` the events can occur in order and leave table `Df`.
A `visit_node` event snapshots the current table and does not change it; a
`relax_edge` event from `src` to `tgt` records
`updated_distance = distances[src] + weight` for an actual edge `(tgt, w)`
of `src`, strictly below the previous value recorded for `tgt`, updates the
table at `tgt` to it and snapshots the updated table. -/
inductive TraceOk (g : Graph) : DistTable → List Step → DistTable → Prop where
  | nil (D : DistTable) : TraceOk g D [] D
  | visit (D : DistTable) (c : Node) (vs : List Node) (tl : List Step) (Df : DistTable) :
      TraceOk g D tl Df → TraceOk g D (Step.visit_node c D vs :: tl) Df
  | relax (D : DistTable) (src tgt : Node) (w df : Nat) (dOld : Dist)
      (adj : List (Node × Weight)) (tl : List Step) (Df : DistTable) :
      D.lookup src = some (some df) →
      g.lookup src = some adj → (tgt, w) ∈ adj →
      D.lookup tgt = some dOld → distLtB (df + w) dOld = true →
      TraceOk g (setD D tgt (some (df + w))) tl Df →
      TraceOk g D
        (Step.relax_edge src tgt (df + w) (setD D tgt (some (df + w))) :: tl) Df

/-- The subsequence of `visit_node` events, as `(current_node, visited_nodes)`
pairs. -/
def visitSeq (l : List Step) : List (Node × List Node) :=
  l.filterMap fun ev =>
    match ev with
    | .visit_node c _ vs => some (c, vs)
    | _ => none

/-- The visit record generated by visiting the nodes of a list in order,
starting from the already-visited accumulator `acc`. -/
def prefixRecord (acc : List Node) : List Node → List (Node × List Node)
  | [] => []
  | v :: rest => (v, acc ++ [v]) :: prefixRecord (acc ++ [v]) rest

/-! ### Unfolding lemmas for the relaxation loop -/

theorem relaxEdges_nil (cn : Node) (cd : Nat) (st : EState) :
    relaxEdges cn cd [] st = (st, none) := rfl

theorem relaxEdges_cons_visited {st : EState} {t : Node} (cn : Node) (cd w : Nat)
    (rest : List (Node × Weight)) (hv : t ∈ st.visited) :
    relaxEdges cn cd ((t, w) :: rest) st = relaxEdges cn cd rest st := by
  simp [relaxEdges, hv]

theorem relaxEdges_cons_dangling {st : EState} {t : Node} (cn : Node) (cd w : Nat)
    (rest : List (Node × Weight)) (hv : t ∉ st.visited)
    (hl : st.distances.lookup t = none) :
    relaxEdges cn cd ((t, w) :: rest) st = (st, some (.keyError t)) := by
  simp [relaxEdges, hv, hl]

theorem relaxEdges_cons_update {st : EState} {t : Node} {dOld : Dist}
    (cn : Node) (cd w : Nat) (rest : List (Node × Weight))
    (hv : t ∉ st.visited)
    (hl : st.distances.lookup t = some dOld)
    (himp : distLtB (cd + w) dOld = true) :
    relaxEdges cn cd ((t, w) :: rest) st =
      relaxEdges cn cd rest
        { distances := setD st.distances t (some (cd + w))
          visited := st.visited
          pq := (cd + w, t) :: st.pq
          steps := st.steps ++
            [.relax_edge cn t (cd + w) (setD st.distances t (some (cd + w)))] } := by
  simp [relaxEdges, hv, hl, himp]

theorem relaxEdges_cons_noimp {st : EState} {t : Node} {dOld : Dist}
    (cn : Node) (cd w : Nat) (rest : List (Node × Weight))
    (hv : t ∉ st.visited)
    (hl : st.distances.lookup t = some dOld)
    (himp : distLtB (cd + w) dOld = false) :
    relaxEdges cn cd ((t, w) :: rest) st = relaxEdges cn cd rest st := by
  simp [relaxEdges, hv, hl, himp]

/-! ### Pointwise distance order -/

theorem distLe_refl (a : Dist) : distLe a a := by
  cases a <;> simp [distLe]

theorem distLe_trans {a b c : Dist} (h1 : distLe a b) (h2 : distLe b c) : distLe a c := by
  cases a <;> cases b <;> cases c <;> simp_all [distLe] <;> omega

theorem distLe_of_ltB {u : Nat} {d : Dist} (h : distLtB u d = true) : distLe (some u) d := by
  cases d <;> simp_all [distLe, distLtB] <;> omega

/-! ### Properties of the relaxation loop -/

theorem relax_visited_eq (cn : Node) (cd : Nat) (ns : List (Node × Weight)) (st : EState) :
    (relaxEdges cn cd ns st).1.visited = st.visited := by
  induction ns generalizing st with
  | nil => rfl
  | cons p rest ih =>
    rcases p with ⟨t, w⟩
    by_cases hv : t ∈ st.visited
    · rw [relaxEdges_cons_visited cn cd w rest hv]
      exact ih st
    · cases hl : st.distances.lookup t with
      | none => rw [relaxEdges_cons_dangling cn cd w rest hv hl]
      | some dOld =>
        cases himp : distLtB (cd + w) dOld with
        | false =>
          rw [relaxEdges_cons_noimp cn cd w rest hv hl himp]
          exact ih st
        | true =>
          rw [relaxEdges_cons_update cn cd w rest hv hl himp]
          exact ih _

theorem relax_keys_eq (cn : Node) (cd : Nat) (ns : List (Node × Weight)) (st : EState) :
    (relaxEdges cn cd ns st).1.distances.map Prod.fst = st.distances.map Prod.fst := by
  induction ns generalizing st with
  | nil => rfl
  | cons p rest ih =>
    rcases p with ⟨t, w⟩
    by_cases hv : t ∈ st.visited
    · rw [relaxEdges_cons_visited cn cd w rest hv]
      exact ih st
    · cases hl : st.distances.lookup t with
      | none => rw [relaxEdges_cons_dangling cn cd w rest hv hl]
      | some dOld =>
        cases himp : distLtB (cd + w) dOld with
        | false =>
          rw [relaxEdges_cons_noimp cn cd w rest hv hl himp]
          exact ih st
        | true =>
          rw [relaxEdges_cons_update cn cd w rest hv hl himp]
          rw [ih _]
          exact setD_map_fst_of_mem _ (mem_of_lookup_isSome hl)

theorem relax_mono (cn : Node) (cd : Nat) (ns : List (Node × Weight)) (st : EState) :
    ∀ k dNew, (relaxEdges cn cd ns st).1.distances.lookup k = some dNew →
      ∃ dOld, st.distances.lookup k = some dOld ∧ distLe dNew dOld := by
  induction ns generalizing st with
  | nil =>
    intro k dNew h
    exact ⟨dNew, h, distLe_refl dNew⟩
  | cons p rest ih =>
    rcases p with ⟨t, w⟩
    intro k dNew h
    by_cases hv : t ∈ st.visited
    · rw [relaxEdges_cons_visited cn cd w rest hv] at h
      exact ih st k dNew h
    · cases hl : st.distances.lookup t with
      | none =>
        rw [relaxEdges_cons_dangling cn cd w rest hv hl] at h
        exact ⟨dNew, h, distLe_refl dNew⟩
      | some dOld =>
        cases himp : distLtB (cd + w) dOld with
        | false =>
          rw [relaxEdges_cons_noimp cn cd w rest hv hl himp] at h
          exact ih st k dNew h
        | true =>
          rw [relaxEdges_cons_update cn cd w rest hv hl himp] at h
          rcases ih _ k dNew h with ⟨dMid, hMid, hle⟩
          by_cases hk : k = t
          · subst hk
            rw [lookup_setD_self] at hMid
            have hMid2 : some (cd + w) = dMid := by injection hMid
            refine ⟨dOld, hl, ?_⟩
            rw [← hMid2] at hle
            exact distLe_trans hle (distLe_of_ltB himp)
          · rw [lookup_setD_ne _ _ hk] at hMid
            exact ⟨dMid, hMid, hle⟩

theorem relax_lookup_visited (cn : Node) (cd : Nat) (ns : List (Node × Weight))
    (st : EState) : ∀ k ∈ st.visited,
      (relaxEdges cn cd ns st).1.distances.lookup k = st.distances.lookup k := by
  induction ns generalizing st with
  | nil => intro k _; rfl
  | cons p rest ih =>
    rcases p with ⟨t, w⟩
    intro k hk
    by_cases hv : t ∈ st.visited
    · rw [relaxEdges_cons_visited cn cd w rest hv]
      exact ih st k hk
    · cases hl : st.distances.lookup t with
      | none => rw [relaxEdges_cons_dangling cn cd w rest hv hl]
      | some dOld =>
        cases himp : distLtB (cd + w) dOld with
        | false =>
          rw [relaxEdges_cons_noimp cn cd w rest hv hl himp]
          exact ih st k hk
        | true =>
          rw [relaxEdges_cons_update cn cd w rest hv hl himp]
          have hkt : k ≠ t := fun hkt => hv (hkt ▸ hk)
          have hstep := ih
            { distances := setD st.distances t (some (cd + w))
              visited := st.visited
              pq := (cd + w, t) :: st.pq
              steps := st.steps ++
                [.relax_edge cn t (cd + w) (setD st.distances t (some (cd + w)))] } k hk
          rw [hstep]
          exact lookup_setD_ne _ _ hkt

theorem relax_pq_mono (cn : Node) (cd : Nat) (ns : List (Node × Weight)) (st : EState) :
    ∀ x ∈ st.pq, x ∈ (relaxEdges cn cd ns st).1.pq := by
  induction ns generalizing st with
  | nil => intro x hx; exact hx
  | cons p rest ih =>
    rcases p with ⟨t, w⟩
    intro x hx
    by_cases hv : t ∈ st.visited
    · rw [relaxEdges_cons_visited cn cd w rest hv]
      exact ih st x hx
    · cases hl : st.distances.lookup t with
      | none =>
        rw [relaxEdges_cons_dangling cn cd w rest hv hl]
        exact hx
      | some dOld =>
        cases himp : distLtB (cd + w) dOld with
        | false =>
          rw [relaxEdges_cons_noimp cn cd w rest hv hl himp]
          exact ih st x hx
        | true =>
          rw [relaxEdges_cons_update cn cd w rest hv hl himp]
          exact ih _ x (List.mem_cons_of_mem _ hx)

theorem relax_pq_len (cn : Node) (cd : Nat) (ns : List (Node × Weight)) (st : EState) :
    (relaxEdges cn cd ns st).1.pq.length ≤ st.pq.length + ns.length := by
  induction ns generalizing st with
  | nil => simp [relaxEdges_nil]
  | cons p rest ih =>
    rcases p with ⟨t, w⟩
    by_cases hv : t ∈ st.visited
    · rw [relaxEdges_cons_visited cn cd w rest hv]
      have := ih st
      simp only [List.length_cons]
      omega
    · cases hl : st.distances.lookup t with
      | none =>
        rw [relaxEdges_cons_dangling cn cd w rest hv hl]
        simp only [List.length_cons]
        omega
      | some dOld =>
        cases himp : distLtB (cd + w) dOld with
        | false =>
          rw [relaxEdges_cons_noimp cn cd w rest hv hl himp]
          have := ih st
          simp only [List.length_cons]
          omega
        | true =>
          rw [relaxEdges_cons_update cn cd w rest hv hl himp]
          have := ih
            { distances := setD st.distances t (some (cd + w))
              visited := st.visited
              pq := (cd + w, t) :: st.pq
              steps := st.steps ++
                [.relax_edge cn t (cd + w) (setD st.distances t (some (cd + w)))] }
          simp only [List.length_cons] at this ⊢
          omega

theorem visitSeq_append (l1 l2 : List Step) :
    visitSeq (l1 ++ l2) = visitSeq l1 ++ visitSeq l2 := by
  simp [visitSeq, List.filterMap_append]

theorem relax_visitSeq (cn : Node) (cd : Nat) (ns : List (Node × Weight)) (st : EState) :
    visitSeq (relaxEdges cn cd ns st).1.steps = visitSeq st.steps := by
  induction ns generalizing st with
  | nil => rfl
  | cons p rest ih =>
    rcases p with ⟨t, w⟩
    by_cases hv : t ∈ st.visited
    · rw [relaxEdges_cons_visited cn cd w rest hv]
      exact ih st
    · cases hl : st.distances.lookup t with
      | none => rw [relaxEdges_cons_dangling cn cd w rest hv hl]
      | some dOld =>
        cases himp : distLtB (cd + w) dOld with
        | false =>
          rw [relaxEdges_cons_noimp cn cd w rest hv hl himp]
          exact ih st
        | true =>
          rw [relaxEdges_cons_update cn cd w rest hv hl himp]
          rw [ih _]
          simp [visitSeq_append, visitSeq]

theorem traceOk_append {g : Graph} {A B C : DistTable} {l l' : List Step}
    (h1 : TraceOk g A l B) (h2 : TraceOk g B l' C) : TraceOk g A (l ++ l') C := by
  induction h1 with
  | nil D => exact h2
  | visit D c vs tl Df _ ih => exact TraceOk.visit D c vs _ C (ih h2)
  | relax D src tgt w df dOld adj tl Df hsrc hadj hmem htgt hlt _ ih =>
    exact TraceOk.relax D src tgt w df dOld adj _ C hsrc hadj hmem htgt hlt (ih h2)

theorem relax_pres_sound (g : Graph) (s cn : Node) (cd : Nat)
    {adj : List (Node × Weight)} (ns : List (Node × Weight)) (st : EState)
    (hcn : Reaches g s cn cd) (hadj : g.lookup cn = some adj)
    (hsub : ∀ x ∈ ns, x ∈ adj)
    (hpq : ∀ p ∈ st.pq, Reaches g s p.2 p.1 ∧
      ∃ dv, st.distances.lookup p.2 = some (some dv) ∧ dv ≤ p.1) :
    ∀ p ∈ (relaxEdges cn cd ns st).1.pq, Reaches g s p.2 p.1 ∧
      ∃ dv, (relaxEdges cn cd ns st).1.distances.lookup p.2 = some (some dv) ∧
        dv ≤ p.1 := by
  induction ns generalizing st with
  | nil => exact hpq
  | cons q rest ih =>
    rcases q with ⟨t, w⟩
    have hsub' : ∀ x ∈ rest, x ∈ adj := fun x hx => hsub x (List.mem_cons_of_mem _ hx)
    by_cases hv : t ∈ st.visited
    · rw [relaxEdges_cons_visited cn cd w rest hv]
      exact ih st hsub' hpq
    · cases hl : st.distances.lookup t with
      | none =>
        rw [relaxEdges_cons_dangling cn cd w rest hv hl]
        exact hpq
      | some dOld =>
        cases himp : distLtB (cd + w) dOld with
        | false =>
          rw [relaxEdges_cons_noimp cn cd w rest hv hl himp]
          exact ih st hsub' hpq
        | true =>
          rw [relaxEdges_cons_update cn cd w rest hv hl himp]
          refine ih _ hsub' ?_
          intro p hp
          rcases List.mem_cons.mp hp with hp | hp
          · subst hp
            refine ⟨Reaches.step hcn hadj (hsub _ (List.mem_cons_self _ _)), ?_⟩
            exact ⟨cd + w, lookup_setD_self _ _ _, le_refl _⟩
          · rcases hpq p hp with ⟨hre, dv, hdv, hle⟩
            refine ⟨hre, ?_⟩
            by_cases hpt : p.2 = t
            · rw [hpt] at hdv
              rw [hl] at hdv
              have hdOld : dOld = some dv := by injection hdv
              subst hdOld
              simp only [distLtB, decide_eq_true_eq] at himp
              exact ⟨cd + w, by rw [hpt]; exact lookup_setD_self _ _ _, by omega⟩
            · exact ⟨dv, by rw [lookup_setD_ne _ _ hpt]; exact hdv, hle⟩

theorem relax_pres_complete (cn : Node) (cd : Nat) (ns : List (Node × Weight))
    (st : EState)
    (h : ∀ v d, v ∉ st.visited → st.distances.lookup v = some (some d) →
      (d, v) ∈ st.pq) :
    ∀ v d, v ∉ st.visited →
      (relaxEdges cn cd ns st).1.distances.lookup v = some (some d) →
        (d, v) ∈ (relaxEdges cn cd ns st).1.pq := by
  induction ns generalizing st with
  | nil => exact h
  | cons q rest ih =>
    rcases q with ⟨t, w⟩
    by_cases hv : t ∈ st.visited
    · rw [relaxEdges_cons_visited cn cd w rest hv]
      exact ih st h
    · cases hl : st.distances.lookup t with
      | none =>
        rw [relaxEdges_cons_dangling cn cd w rest hv hl]
        exact h
      | some dOld =>
        cases himp : distLtB (cd + w) dOld with
        | false =>
          rw [relaxEdges_cons_noimp cn cd w rest hv hl himp]
          exact ih st h
        | true =>
          rw [relaxEdges_cons_update cn cd w rest hv hl himp]
          exact ih
            { distances := setD st.distances t (some (cd + w))
              visited := st.visited
              pq := (cd + w, t) :: st.pq
              steps := st.steps ++
                [.relax_edge cn t (cd + w) (setD st.distances t (some (cd + w)))] }
            (by
              intro v d hvv hvd
              by_cases hvt : v = t
              · subst hvt
                rw [lookup_setD_self] at hvd
                have h2 : some (cd + w) = some d := by injection hvd
                have hd : cd + w = d := by injection h2
                subst hd
                exact (List.mem_cons_self _ _)
              · rw [lookup_setD_ne _ _ hvt] at hvd
                exact List.mem_cons_of_mem _ (h v d hvv hvd))

theorem relax_pres_realizable (g : Graph) (s cn : Node) (cd : Nat)
    {adj : List (Node × Weight)} (ns : List (Node × Weight)) (st : EState)
    (hcn : Reaches g s cn cd) (hadj : g.lookup cn = some adj)
    (hsub : ∀ x ∈ ns, x ∈ adj)
    (h : ∀ v d, st.distances.lookup v = some (some d) → Reaches g s v d) :
    ∀ v d, (relaxEdges cn cd ns st).1.distances.lookup v = some (some d) →
      Reaches g s v d := by
  induction ns generalizing st with
  | nil => exact h
  | cons q rest ih =>
    rcases q with ⟨t, w⟩
    have hsub' : ∀ x ∈ rest, x ∈ adj := fun x hx => hsub x (List.mem_cons_of_mem _ hx)
    by_cases hv : t ∈ st.visited
    · rw [relaxEdges_cons_visited cn cd w rest hv]
      exact ih st hsub' h
    · cases hl : st.distances.lookup t with
      | none =>
        rw [relaxEdges_cons_dangling cn cd w rest hv hl]
        exact h
      | some dOld =>
        cases himp : distLtB (cd + w) dOld with
        | false =>
          rw [relaxEdges_cons_noimp cn cd w rest hv hl himp]
          exact ih st hsub' h
        | true =>
          rw [relaxEdges_cons_update cn cd w rest hv hl himp]
          refine ih _ hsub' ?_
          intro v d hvd
          by_cases hvt : v = t
          · subst hvt
            rw [lookup_setD_self] at hvd
            have : some (cd + w) = some d := by injection hvd
            have hd : cd + w = d := by injection this
            subst hd
            exact Reaches.step hcn hadj (hsub _ (List.mem_cons_self _ _))
          · rw [lookup_setD_ne _ _ hvt] at hvd
            exact h v d hvd

theorem relax_establish (cn : Node) (cd : Nat) (ns : List (Node × Weight))
    (st : EState) (herr : (relaxEdges cn cd ns st).2 = none) :
    ∀ t w, (t, w) ∈ ns → t ∉ st.visited →
      ∃ dt, (relaxEdges cn cd ns st).1.distances.lookup t = some (some dt) ∧
        dt ≤ cd + w := by
  induction ns generalizing st with
  | nil => intro t w hmem; simp at hmem
  | cons q rest ih =>
    rcases q with ⟨t0, w0⟩
    intro t w hmem hvis
    by_cases hv : t0 ∈ st.visited
    · rw [relaxEdges_cons_visited cn cd w0 rest hv] at herr ⊢
      rcases List.mem_cons.mp hmem with hmem | hmem
      · rw [Prod.mk.injEq] at hmem
        exact absurd (hmem.1 ▸ hv) hvis
      · exact ih st herr t w hmem hvis
    · cases hl : st.distances.lookup t0 with
      | none =>
        rw [relaxEdges_cons_dangling cn cd w0 rest hv hl] at herr
        simp at herr
      | some dOld =>
        cases himp : distLtB (cd + w0) dOld with
        | false =>
          rw [relaxEdges_cons_noimp cn cd w0 rest hv hl himp] at herr ⊢
          rcases List.mem_cons.mp hmem with hmem | hmem
          · rw [Prod.mk.injEq] at hmem
            rcases hmem with ⟨ht, hw⟩
            subst ht; subst hw
            cases dOld with
            | none => simp [distLtB] at himp
            | some m =>
              simp only [distLtB, decide_eq_false_iff_not] at himp
              have hmem2 : t ∈ (relaxEdges cn cd rest st).1.distances.map Prod.fst := by
                rw [relax_keys_eq]
                exact mem_of_lookup_isSome hl
              rcases lookup_isSome_of_mem hmem2 with ⟨dNew, hNew⟩
              rcases relax_mono cn cd rest st t dNew hNew with ⟨dOld', hOld', hle⟩
              rw [hl] at hOld'
              have : some m = dOld' := by injection hOld'
              subst this
              cases dNew with
              | none => simp [distLe] at hle
              | some x =>
                simp only [distLe] at hle
                exact ⟨x, hNew, by omega⟩
          · exact ih st herr t w hmem hvis
        | true =>
          rw [relaxEdges_cons_update cn cd w0 rest hv hl himp] at herr ⊢
          rcases List.mem_cons.mp hmem with hmem | hmem
          · rw [Prod.mk.injEq] at hmem
            rcases hmem with ⟨ht, hw⟩
            subst ht; subst hw
            have hmem2 : t ∈ (relaxEdges cn cd rest
                { distances := setD st.distances t (some (cd + w))
                  visited := st.visited
                  pq := (cd + w, t) :: st.pq
                  steps := st.steps ++
                    [.relax_edge cn t (cd + w)
                      (setD st.distances t (some (cd + w)))] }).1.distances.map
                Prod.fst := by
              rw [relax_keys_eq]
              rw [setD_map_fst_of_mem _ (mem_of_lookup_isSome hl)]
              exact mem_of_lookup_isSome hl
            rcases lookup_isSome_of_mem hmem2 with ⟨dNew, hNew⟩
            rcases relax_mono cn cd rest _ t dNew hNew with ⟨dOld', hOld', hle⟩
            rw [lookup_setD_self] at hOld'
            have : some (cd + w) = dOld' := by injection hOld'
            subst this
            cases dNew with
            | none => simp [distLe] at hle
            | some x =>
              simp only [distLe] at hle
              exact ⟨x, hNew, hle⟩
          · exact ih _ herr t w hmem hvis

theorem relax_err (cn : Node) (cd : Nat) (ns : List (Node × Weight)) (st : EState)
    {e : PyErr} (herr : (relaxEdges cn cd ns st).2 = some e) :
    ∃ t w, e = .keyError t ∧ (t, w) ∈ ns ∧ t ∉ st.visited ∧
      (relaxEdges cn cd ns st).1.distances.lookup t = none := by
  induction ns generalizing st with
  | nil => simp [relaxEdges_nil] at herr
  | cons q rest ih =>
    rcases q with ⟨t0, w0⟩
    by_cases hv : t0 ∈ st.visited
    · rw [relaxEdges_cons_visited cn cd w0 rest hv] at herr ⊢
      rcases ih st herr with ⟨t, w, he, hmem, hvis, hlook⟩
      exact ⟨t, w, he, List.mem_cons_of_mem _ hmem, hvis, hlook⟩
    · cases hl : st.distances.lookup t0 with
      | none =>
        rw [relaxEdges_cons_dangling cn cd w0 rest hv hl] at herr ⊢
        have he : e = .keyError t0 := by
          have := herr
          simp only [Option.some.injEq] at this
          exact this.symm
        exact ⟨t0, w0, he, (List.mem_cons_self _ _), hv, hl⟩
      | some dOld =>
        cases himp : distLtB (cd + w0) dOld with
        | false =>
          rw [relaxEdges_cons_noimp cn cd w0 rest hv hl himp] at herr ⊢
          rcases ih st herr with ⟨t, w, he, hmem, hvis, hlook⟩
          exact ⟨t, w, he, List.mem_cons_of_mem _ hmem, hvis, hlook⟩
        | true =>
          rw [relaxEdges_cons_update cn cd w0 rest hv hl himp] at herr ⊢
          rcases ih _ herr with ⟨t, w, he, hmem, hvis, hlook⟩
          exact ⟨t, w, he, List.mem_cons_of_mem _ hmem, hvis, hlook⟩

theorem relax_traceOk (g : Graph) (cn : Node) (cd : Nat)
    {adj : List (Node × Weight)} (ns : List (Node × Weight)) (st : EState)
    {D0 : DistTable}
    (hcn : st.distances.lookup cn = some (some cd)) (hvcn : cn ∈ st.visited)
    (hadj : g.lookup cn = some adj) (hsub : ∀ x ∈ ns, x ∈ adj)
    (htr : TraceOk g D0 st.steps st.distances) :
    TraceOk g D0 (relaxEdges cn cd ns st).1.steps
      (relaxEdges cn cd ns st).1.distances := by
  induction ns generalizing st with
  | nil => exact htr
  | cons q rest ih =>
    rcases q with ⟨t, w⟩
    have hsub' : ∀ x ∈ rest, x ∈ adj := fun x hx => hsub x (List.mem_cons_of_mem _ hx)
    by_cases hv : t ∈ st.visited
    · rw [relaxEdges_cons_visited cn cd w rest hv]
      exact ih st hcn hvcn hsub' htr
    · cases hl : st.distances.lookup t with
      | none =>
        rw [relaxEdges_cons_dangling cn cd w rest hv hl]
        exact htr
      | some dOld =>
        cases himp : distLtB (cd + w) dOld with
        | false =>
          rw [relaxEdges_cons_noimp cn cd w rest hv hl himp]
          exact ih st hcn hvcn hsub' htr
        | true =>
          rw [relaxEdges_cons_update cn cd w rest hv hl himp]
          have hct : cn ≠ t := fun hc => hv (hc ▸ hvcn)
          refine ih _ ?_ hvcn hsub' ?_
          · rw [lookup_setD_ne _ _ (Ne.symm (Ne.symm hct))]
            exact hcn
          · refine traceOk_append htr ?_
            exact TraceOk.relax st.distances cn t w cd dOld adj _ _ hcn hadj
              (hsub _ (List.mem_cons_self _ _)) hl himp (TraceOk.nil _)

theorem relax_frame (cn : Node) (cd : Nat) (ns : List (Node × Weight)) (st : EState)
    (p : List Step) :
    relaxEdges cn cd ns
        { distances := st.distances, visited := st.visited, pq := st.pq
          steps := p ++ st.steps } =
      ({ distances := (relaxEdges cn cd ns st).1.distances
         visited := (relaxEdges cn cd ns st).1.visited
         pq := (relaxEdges cn cd ns st).1.pq
         steps := p ++ (relaxEdges cn cd ns st).1.steps },
        (relaxEdges cn cd ns st).2) := by
  induction ns generalizing st with
  | nil => rfl
  | cons q rest ih =>
    rcases q with ⟨t, w⟩
    by_cases hv : t ∈ st.visited
    · rw [relaxEdges_cons_visited cn cd w rest hv,
        @relaxEdges_cons_visited
          { distances := st.distances, visited := st.visited, pq := st.pq
            steps := p ++ st.steps } t cn cd w rest hv]
      exact ih st
    · cases hl : st.distances.lookup t with
      | none =>
        rw [relaxEdges_cons_dangling cn cd w rest hv hl,
          @relaxEdges_cons_dangling
            { distances := st.distances, visited := st.visited, pq := st.pq
              steps := p ++ st.steps } t cn cd w rest hv hl]
      | some dOld =>
        cases himp : distLtB (cd + w) dOld with
        | false =>
          rw [relaxEdges_cons_noimp cn cd w rest hv hl himp,
            @relaxEdges_cons_noimp
              { distances := st.distances, visited := st.visited, pq := st.pq
                steps := p ++ st.steps } t dOld cn cd w rest hv hl himp]
          exact ih st
        | true =>
          rw [relaxEdges_cons_update cn cd w rest hv hl himp,
            @relaxEdges_cons_update
              { distances := st.distances, visited := st.visited, pq := st.pq
                steps := p ++ st.steps } t dOld cn cd w rest hv hl himp]
          have := ih
            { distances := setD st.distances t (some (cd + w))
              visited := st.visited
              pq := (cd + w, t) :: st.pq
              steps := st.steps ++
                [.relax_edge cn t (cd + w) (setD st.distances t (some (cd + w)))] }
          rw [← List.append_assoc] at this
          exact this

/-! ### Unfolding lemmas for the main loop -/

/-- The state right after marking `v` visited and recording its
`visit_node` event, with the popped queue `pq'`. -/
def visitState (st : EState) (v : Node) (pq' : List (Nat × Node)) : EState :=
  { distances := st.distances, visited := st.visited ++ [v], pq := pq'
    steps := st.steps ++ [.visit_node v st.distances (st.visited ++ [v])] }

theorem loopStep_done {st : EState} (g : Graph) (h : popMin st.pq = none) :
    loopStep g st = .done st := by
  simp [loopStep, h]

theorem loopStep_skip {st : EState} {d : Nat} {v : Node} {pq' : List (Nat × Node)}
    (g : Graph) (h : popMin st.pq = some ((d, v), pq')) (hv : v ∈ st.visited) :
    loopStep g st = .cont
      { distances := st.distances, visited := st.visited, pq := pq'
        steps := st.steps } := by
  simp [loopStep, h, hv]

theorem loopStep_visit_nog {st : EState} {d : Nat} {v : Node}
    {pq' : List (Nat × Node)} (g : Graph)
    (h : popMin st.pq = some ((d, v), pq')) (hv : v ∉ st.visited)
    (hg : g.lookup v = none) :
    loopStep g st = .fail
      (visitState st v pq') (.keyError v) := by
  simp [loopStep, visitState, h, hv, hg]

theorem loopStep_visit_ok {st st3 : EState} {d : Nat} {v : Node}
    {pq' : List (Nat × Node)} {ns : List (Node × Weight)} (g : Graph)
    (h : popMin st.pq = some ((d, v), pq')) (hv : v ∉ st.visited)
    (hg : g.lookup v = some ns)
    (hrel : relaxEdges v d ns (visitState st v pq') = (st3, none)) :
    loopStep g st = .cont st3 := by
  simp only [visitState] at hrel
  simp [loopStep, h, hv, hg, hrel]

theorem loopStep_visit_err {st st3 : EState} {d : Nat} {v : Node} {e : PyErr}
    {pq' : List (Nat × Node)} {ns : List (Node × Weight)} (g : Graph)
    (h : popMin st.pq = some ((d, v), pq')) (hv : v ∉ st.visited)
    (hg : g.lookup v = some ns)
    (hrel : relaxEdges v d ns (visitState st v pq') = (st3, some e)) :
    loopStep g st = .fail st3 e := by
  simp only [visitState] at hrel
  simp [loopStep, h, hv, hg, hrel]

/-! ### Termination: the loop measure decreases -/

/-- The invariant needed for the fuel bound: every queue entry's node is a
distance-table key, and the table keys are distinct. -/
structure FuelInv (st : EState) : Prop where
  pq_keys : ∀ p ∈ st.pq, p.2 ∈ st.distances.map Prod.fst
  keys_nodup : (st.distances.map Prod.fst).Nodup

theorem relax_pq_keys (cn : Node) (cd : Nat) (ns : List (Node × Weight))
    (st : EState) (h : ∀ p ∈ st.pq, p.2 ∈ st.distances.map Prod.fst) :
    ∀ p ∈ (relaxEdges cn cd ns st).1.pq,
      p.2 ∈ (relaxEdges cn cd ns st).1.distances.map Prod.fst := by
  induction ns generalizing st with
  | nil => exact h
  | cons q rest ih =>
    rcases q with ⟨t, w⟩
    by_cases hv : t ∈ st.visited
    · rw [relaxEdges_cons_visited cn cd w rest hv]
      exact ih st h
    · cases hl : st.distances.lookup t with
      | none =>
        rw [relaxEdges_cons_dangling cn cd w rest hv hl]
        exact h
      | some dOld =>
        cases himp : distLtB (cd + w) dOld with
        | false =>
          rw [relaxEdges_cons_noimp cn cd w rest hv hl himp]
          exact ih st h
        | true =>
          rw [relaxEdges_cons_update cn cd w rest hv hl himp]
          refine ih _ ?_
          intro p hp
          have hkeys : (setD st.distances t (some (cd + w))).map Prod.fst =
              st.distances.map Prod.fst := setD_map_fst_of_mem _ (mem_of_lookup_isSome hl)
          rcases List.mem_cons.mp hp with hp | hp
          · subst hp
            rw [hkeys]
            exact mem_of_lookup_isSome hl
          · rw [hkeys]
            exact h p hp

theorem map_fst_init (g : Graph) :
    (g.map (fun p => (p.1, (none : Dist)))).map Prod.fst = g.map Prod.fst := by
  induction g with
  | nil => rfl
  | cons p rest ih => simp [ih]

theorem fuelInv_init (g : Graph) (s : Node) (steps0 : List Step)
    (hnd : (g.map Prod.fst).Nodup) : FuelInv (initState g s steps0) := by
  by_cases hs : s ∈ (g.map (fun p => (p.1, (none : Dist)))).map Prod.fst
  · have hkeys : (initState g s steps0).distances.map Prod.fst = g.map Prod.fst := by
      simp only [initState]
      rw [setD_map_fst_of_mem _ hs, map_fst_init]
    constructor
    · intro p hp
      simp only [initState, List.mem_singleton] at hp
      subst hp
      rw [hkeys]
      rw [map_fst_init] at hs
      exact hs
    · rw [hkeys]; exact hnd
  · have hkeys : (initState g s steps0).distances.map Prod.fst =
        g.map Prod.fst ++ [s] := by
      simp only [initState]
      rw [setD_map_fst_of_not_mem _ hs, map_fst_init]
    constructor
    · intro p hp
      simp only [initState, List.mem_singleton] at hp
      subst hp
      rw [hkeys]
      simp
    · rw [hkeys]
      rw [map_fst_init] at hs
      refine List.Nodup.append hnd (List.nodup_singleton s) ?_
      intro a ha hb
      simp only [List.mem_singleton] at hb
      subst hb
      exact hs ha

theorem sum_filter_tail_congr (keys : List Node) (f : Node → Nat)
    (visited : List Node) (v : Node) (hv : v ∉ keys) :
    ((keys.filter (fun k => !(visited ++ [v]).contains k)).map f).sum =
      ((keys.filter (fun k => !visited.contains k)).map f).sum := by
  have hcongr : keys.filter (fun k => !(visited ++ [v]).contains k) =
      keys.filter (fun k => !visited.contains k) := by
    refine List.filter_congr ?_
    intro k hk
    have hkv : k ≠ v := fun h => hv (h ▸ hk)
    simp [hkv]
  rw [hcongr]

theorem sum_filter_visit (keys : List Node) (f : Node → Nat) (visited : List Node)
    (v : Node) (hnd : keys.Nodup) (hv : v ∈ keys) (hvis : v ∉ visited) :
    ((keys.filter (fun k => !visited.contains k)).map f).sum =
      f v + ((keys.filter (fun k => !(visited ++ [v]).contains k)).map f).sum := by
  induction keys with
  | nil => simp at hv
  | cons k rest ih =>
    rcases List.mem_cons.mp hv with hkv | hkv
    · subst hkv
      have hnotrest : v ∉ rest := (List.nodup_cons.mp hnd).1
      have h1 : (!visited.contains v) = true := by simp [hvis]
      have h2 : (!(visited ++ [v]).contains v) = false := by simp
      rw [List.filter_cons, List.filter_cons, h1, h2]
      simp only [Bool.false_eq_true, if_true, if_false, List.map_cons, List.sum_cons]
      rw [sum_filter_tail_congr rest f visited v hnotrest]
    · have hnd' := (List.nodup_cons.mp hnd).2
      have hkne : k ≠ v := fun h2 => (List.nodup_cons.mp hnd).1 (h2 ▸ hkv)
      have hsame : (!(visited ++ [v]).contains k) = (!visited.contains k) := by
        simp [hkne]
      rw [List.filter_cons, List.filter_cons, hsame]
      cases hvk : (!visited.contains k) with
      | false =>
        simp only [Bool.false_eq_true, if_false]
        exact ih hnd' hkv
      | true =>
        simp only [if_true, List.map_cons, List.sum_cons]
        rw [ih hnd' hkv]
        omega

theorem fuelInv_cont {g : Graph} {st st' : EState} (hinv : FuelInv st)
    (h : loopStep g st = .cont st') :
    FuelInv st' ∧ remFuel g st' < remFuel g st := by
  cases hpop : popMin st.pq with
  | none =>
    rw [loopStep_done g hpop] at h
    cases h
  | some p =>
    rcases p with ⟨⟨d, v⟩, pq'⟩
    have hlen : st.pq.length = pq'.length + 1 := popMin_length hpop
    by_cases hv : v ∈ st.visited
    · rw [loopStep_skip g hpop hv] at h
      injection h with h2
      subst h2
      refine ⟨⟨?_, hinv.keys_nodup⟩, ?_⟩
      · intro p hp
        exact hinv.pq_keys p (popMin_rest_subset hpop p hp)
      · simp only [remFuel]
        omega
    · cases hg : List.lookup v g with
      | none =>
        rw [loopStep_visit_nog g hpop hv hg] at h
        cases h
      | some ns =>
        cases hrel : relaxEdges v d ns (visitState st v pq') with
        | mk st3 err =>
          cases err with
          | some e =>
            rw [loopStep_visit_err g hpop hv hg hrel] at h
            cases h
          | none =>
            rw [loopStep_visit_ok g hpop hv hg hrel] at h
            injection h with h2
            subst h2
            have hst3 : (relaxEdges v d ns (visitState st v pq')).1 = st3 := by
              rw [hrel]
            have hkeys3 : st3.distances.map Prod.fst = st.distances.map Prod.fst := by
              rw [← hst3]
              exact relax_keys_eq v d ns _
            have hvis3 : st3.visited = st.visited ++ [v] := by
              rw [← hst3]
              exact relax_visited_eq v d ns _
            have hpq3len : st3.pq.length ≤ pq'.length + ns.length := by
              rw [← hst3]
              exact relax_pq_len v d ns _
            have hvkeys : v ∈ st.distances.map Prod.fst :=
              hinv.pq_keys (d, v) (popMin_mem hpop)
            have houtdeg : outdeg g v = ns.length := by
              simp [outdeg, hg]
            have hsum := sum_filter_visit (st.distances.map Prod.fst) (outdeg g)
              st.visited v hinv.keys_nodup hvkeys hv
            refine ⟨⟨?_, hkeys3 ▸ hinv.keys_nodup⟩, ?_⟩
            · intro p hp
              rw [← hst3] at hp ⊢
              refine relax_pq_keys v d ns _ ?_ p hp
              intro q hq
              exact hinv.pq_keys q (popMin_rest_subset hpop q hq)
            · have e2 : remFuel g st3 = st3.pq.length +
                  (((st.distances.map Prod.fst).filter
                    (fun k => !(st.visited ++ [v]).contains k)).map (outdeg g)).sum := by
                simp only [remFuel, hkeys3, hvis3]
              rw [e2]
              simp only [remFuel]
              omega

theorem dloop_sufficient (g : Graph) :
    ∀ fuel (st : EState), FuelInv st → remFuel g st < fuel →
      ∃ res, dloop g fuel st = some res := by
  intro fuel
  induction fuel with
  | zero => intro st _ hlt; omega
  | succ n ih =>
    intro st hinv hlt
    cases hstep : loopStep g st with
    | done st' => exact ⟨(st', none), by simp [dloop, hstep]⟩
    | fail st' e => exact ⟨(st', some e), by simp [dloop, hstep]⟩
    | cont st' =>
      rcases fuelInv_cont hinv hstep with ⟨hinv', hdec⟩
      rcases ih st' hinv' (by omega) with ⟨res, hres⟩
      exact ⟨res, by simp [dloop, hstep, hres]⟩

theorem run_terminates (g : Graph) (s : Node) (steps0 : List Step)
    (hnd : (g.map Prod.fst).Nodup) : ∃ res, run g s steps0 = some res := by
  have hinv := fuelInv_init g s steps0 hnd
  exact dloop_sufficient g (runFuel g (initState g s steps0)) (initState g s steps0)
    hinv (by simp [runFuel])

/-! ### The main loop invariant -/

theorem pqLt_false_ge {a b : Nat × Node} (h : pqLt a b = false) : b.1 ≤ a.1 := by
  simp only [pqLt, Bool.or_eq_false_iff, decide_eq_false_iff_not] at h
  omega

/-- The Dijkstra loop invariant, for a run started from `s` whose initial
distance table was `D0` and whose steps buffer started empty. -/
structure Inv (g : Graph) (s : Node) (D0 : DistTable) (st : EState) : Prop where
  keys_init : st.distances.map Prod.fst = D0.map Prod.fst
  keys_nodup : (st.distances.map Prod.fst).Nodup
  visited_nodup : st.visited.Nodup
  visited_final : ∀ v ∈ st.visited, ∃ d, st.distances.lookup v = some (some d) ∧
    Reaches g s v d ∧ ∀ c, Reaches g s v c → d ≤ c
  realizable : ∀ v d, st.distances.lookup v = some (some d) → Reaches g s v d
  pq_sound : ∀ p ∈ st.pq, Reaches g s p.2 p.1 ∧
    ∃ dv, st.distances.lookup p.2 = some (some dv) ∧ dv ≤ p.1
  pq_complete : ∀ v d, v ∉ st.visited → st.distances.lookup v = some (some d) →
    (d, v) ∈ st.pq
  crossing : ∀ u ∈ st.visited, ∀ adj, g.lookup u = some adj →
    ∀ t w, (t, w) ∈ adj → t ∉ st.visited →
      ∃ du dt, st.distances.lookup u = some (some du) ∧
        st.distances.lookup t = some (some dt) ∧ dt ≤ du + w
  start_pending : s ∉ st.visited → (0, s) ∈ st.pq
  trace_ok : TraceOk g D0 st.steps st.distances
  visit_rec : visitSeq st.steps = prefixRecord [] st.visited

/-- Dijkstra's key argument: a minimal queue entry for an unvisited node
carries that node's table distance, which is the exact shortest-path
distance. -/
theorem pop_finalizes {g : Graph} {s : Node} {D0 : DistTable} {st : EState}
    {d : Nat} {v : Node} {pq' : List (Nat × Node)} (hinv : Inv g s D0 st)
    (hpop : popMin st.pq = some ((d, v), pq')) (hv : v ∉ st.visited) :
    st.distances.lookup v = some (some d) ∧ Reaches g s v d ∧
      ∀ c, Reaches g s v c → d ≤ c := by
  rcases hinv.pq_sound (d, v) (popMin_mem hpop) with ⟨hre, dv, hdv, hle⟩
  have hmemdv : (dv, v) ∈ st.pq := hinv.pq_complete v dv hv hdv
  have hge : d ≤ dv := pqLt_false_ge (popMin_min hpop (dv, v) hmemdv)
  have hdveq : dv = d := le_antisymm hle hge
  subst hdveq
  refine ⟨hdv, hre, ?_⟩
  intro c hrec
  have key : ∀ y c', Reaches g s y c' → y ∉ st.visited → dv ≤ c' := by
    intro y c' hre'
    induction hre' with
    | base =>
      intro hs
      have h0 : (0, s) ∈ st.pq := hinv.start_pending hs
      have := pqLt_false_ge (popMin_min hpop (0, s) h0)
      omega
    | step hru hadj hedge ih =>
      rename_i u y' c'' w adj
      intro hy
      by_cases hu : u ∈ st.visited
      · rcases hinv.visited_final u hu with ⟨du, hdu, _, hmin⟩
        have hduc : du ≤ c'' := hmin c'' hru
        rcases hinv.crossing u hu adj hadj y' w hedge hy with ⟨du', dt, hdu', hdt, hcross⟩
        have hdueq : du = du' := by
          rw [hdu] at hdu'
          injection hdu' with h1
          injection h1
        subst hdueq
        have hmem : (dt, y') ∈ st.pq := hinv.pq_complete y' dt hy hdt
        have := pqLt_false_ge (popMin_min hpop (dt, y') hmem)
        omega
      · have := ih hu
        omega
  exact key v c hrec hv

/-! ### Initialization -/

theorem lookup_init_map {g : Graph} {v : Node} {x : Dist}
    (h : (g.map (fun p => (p.1, (none : Dist)))).lookup v = some x) : x = none := by
  induction g with
  | nil => simp [List.lookup] at h
  | cons p rest ih =>
    rcases p with ⟨k, adj⟩
    by_cases hk : v = k
    · subst hk
      simp [List.lookup] at h
      exact h.symm
    · simp only [List.map_cons, List.lookup, beq_false_of_ne hk] at h
      exact ih h

theorem lookup_init {g : Graph} {s v : Node} {x : Dist}
    (h : (initState g s []).distances.lookup v = some x) :
    (v = s ∧ x = some 0) ∨ x = none := by
  by_cases hv : v = s
  · subst hv
    left
    refine ⟨rfl, ?_⟩
    simp only [initState] at h
    rw [lookup_setD_self] at h
    injection h with h1
    exact h1.symm
  · right
    simp only [initState] at h
    rw [lookup_setD_ne _ _ hv] at h
    exact lookup_init_map h

theorem inv_init (g : Graph) (s : Node) (hnd : (g.map Prod.fst).Nodup) :
    Inv g s (initState g s []).distances (initState g s []) := by
  constructor
  · rfl
  · exact (fuelInv_init g s [] hnd).keys_nodup
  · exact List.nodup_nil
  · intro v hv
    simp [initState] at hv
  · intro v dv hvd
    rcases lookup_init hvd with ⟨hv, hx⟩ | hx
    · subst hv
      have : dv = 0 := by injection hx
      subst this
      exact Reaches.base
    · cases hx
  · intro p hp
    simp only [initState, List.mem_singleton] at hp
    subst hp
    refine ⟨Reaches.base, 0, ?_, le_refl 0⟩
    simp only [initState]
    exact lookup_setD_self _ _ _
  · intro v dv _ hvd
    rcases lookup_init hvd with ⟨hv, hx⟩ | hx
    · subst hv
      have : dv = 0 := by
        have : (some 0 : Dist) = some dv := by rw [← hx]
        injection this with h1
        exact h1.symm
      subst this
      simp [initState]
    · cases hx
  · intro u hu
    simp [initState] at hu
  · intro _
    simp [initState]
  · exact TraceOk.nil _
  · rfl

theorem prefixRecord_snoc (acc l : List Node) (v : Node) :
    prefixRecord acc (l ++ [v]) = prefixRecord acc l ++ [(v, acc ++ (l ++ [v]))] := by
  induction l generalizing acc with
  | nil => simp [prefixRecord]
  | cons x rest ih =>
    show (x, acc ++ [x]) :: prefixRecord (acc ++ [x]) (rest ++ [v]) = _
    rw [ih (acc ++ [x])]
    simp [prefixRecord, List.append_assoc]

/-- One successful loop iteration preserves the Dijkstra invariant. -/
theorem inv_cont {g : Graph} {s : Node} {D0 : DistTable} {st st' : EState}
    (hinv : Inv g s D0 st) (h : loopStep g st = .cont st') : Inv g s D0 st' := by
  cases hpop : popMin st.pq with
  | none =>
    rw [loopStep_done g hpop] at h
    cases h
  | some p =>
    rcases p with ⟨⟨d, v⟩, pq'⟩
    by_cases hv : v ∈ st.visited
    · rw [loopStep_skip g hpop hv] at h
      injection h with h2
      subst h2
      refine ⟨hinv.keys_init, hinv.keys_nodup, hinv.visited_nodup, hinv.visited_final,
        hinv.realizable, ?_, ?_, hinv.crossing, ?_, hinv.trace_ok, hinv.visit_rec⟩
      · intro p hp
        exact hinv.pq_sound p (popMin_rest_subset hpop p hp)
      · intro v' d' hnv hlk
        refine popMin_mem_rest hpop _ (hinv.pq_complete v' d' hnv hlk) ?_
        intro heq
        have hvv : v' = v := congrArg Prod.snd heq
        exact hnv (hvv ▸ hv)
      · intro hs
        refine popMin_mem_rest hpop _ (hinv.start_pending hs) ?_
        intro heq
        have hsv : s = v := congrArg Prod.snd heq
        exact hs (hsv ▸ hv)
    · cases hg : List.lookup v g with
      | none =>
        rw [loopStep_visit_nog g hpop hv hg] at h
        cases h
      | some ns =>
        cases hrel : relaxEdges v d ns (visitState st v pq') with
        | mk st3 err =>
          cases err with
          | some e =>
            rw [loopStep_visit_err g hpop hv hg hrel] at h
            cases h
          | none =>
            rw [loopStep_visit_ok g hpop hv hg hrel] at h
            injection h with h2
            subst h2
            rcases pop_finalizes hinv hpop hv with ⟨hlkv, hrev, hminv⟩
            have hst3 : (relaxEdges v d ns (visitState st v pq')).1 = st3 := by
              rw [hrel]
            have hvis3 : st3.visited = st.visited ++ [v] := by
              rw [← hst3]
              exact relax_visited_eq v d ns _
            have hkeys3 : st3.distances.map Prod.fst = st.distances.map Prod.fst := by
              rw [← hst3]
              exact relax_keys_eq v d ns _
            have hpres : ∀ k ∈ st.visited ++ [v],
                st3.distances.lookup k = st.distances.lookup k := by
              intro k hk
              rw [← hst3]
              exact relax_lookup_visited v d ns (visitState st v pq') k hk
            have hpq'sub : ∀ p ∈ pq', Reaches g s p.2 p.1 ∧
                ∃ dv, st.distances.lookup p.2 = some (some dv) ∧ dv ≤ p.1 := by
              intro p hp
              exact hinv.pq_sound p (popMin_rest_subset hpop p hp)
            refine ⟨?_, ?_, ?_, ?_, ?_, ?_, ?_, ?_, ?_, ?_, ?_⟩
            · rw [hkeys3]
              exact hinv.keys_init
            · rw [hkeys3]
              exact hinv.keys_nodup
            · rw [hvis3]
              refine List.Nodup.append hinv.visited_nodup (List.nodup_singleton v) ?_
              intro a ha hb
              simp only [List.mem_singleton] at hb
              subst hb
              exact hv ha
            · intro u hu
              rw [hvis3] at hu
              rcases List.mem_append.mp hu with hu1 | hu1
              · rcases hinv.visited_final u hu1 with ⟨du, hdu, hreu, hminu⟩
                refine ⟨du, ?_, hreu, hminu⟩
                rw [hpres u (List.mem_append_left _ hu1)]
                exact hdu
              · simp only [List.mem_singleton] at hu1
                subst hu1
                refine ⟨d, ?_, hrev, hminv⟩
                rw [hpres u (List.mem_append_right _ (List.mem_singleton.mpr rfl))]
                exact hlkv
            · intro v' d' hvd
              rw [← hst3] at hvd
              exact relax_pres_realizable g s v d ns (visitState st v pq') hrev hg
                (fun x hx => hx) hinv.realizable v' d' hvd
            · intro p hp
              rw [← hst3] at hp ⊢
              exact relax_pres_sound g s v d ns (visitState st v pq') hrev hg
                (fun x hx => hx) hpq'sub p hp
            · intro v' d' hnv hlk
              rw [hvis3] at hnv
              rw [← hst3] at hlk ⊢
              refine relax_pres_complete v d ns (visitState st v pq') ?_ v' d' hnv hlk
              intro v'' d'' hnv'' hlk''
              have hnv2 : v'' ∉ st.visited :=
                fun hc => hnv'' (List.mem_append_left _ hc)
              have hne : v'' ≠ v := by
                intro hc
                exact hnv'' (List.mem_append_right _ (hc ▸ List.mem_singleton.mpr rfl))
              refine popMin_mem_rest hpop _ (hinv.pq_complete v'' d'' hnv2 hlk'') ?_
              intro heq
              exact hne (congrArg Prod.snd heq)
            · intro u hu adj hadj t w hedge ht
              rw [hvis3] at hu ht
              have ht1 : t ∉ st.visited := fun hc => ht (List.mem_append_left _ hc)
              have ht2 : t ≠ v := by
                intro hc
                exact ht (List.mem_append_right _ (hc ▸ List.mem_singleton.mpr rfl))
              rcases List.mem_append.mp hu with hu1 | hu1
              · rcases hinv.crossing u hu1 adj hadj t w hedge ht1 with
                  ⟨du, dt, hdu, hdt, hcross⟩
                have htk : t ∈ st3.distances.map Prod.fst := by
                  rw [hkeys3]
                  exact mem_of_lookup_isSome hdt
                rcases lookup_isSome_of_mem htk with ⟨dNew, hNew⟩
                have hNew' : (relaxEdges v d ns (visitState st v pq')).1.distances.lookup
                    t = some dNew := by rw [hst3]; exact hNew
                rcases relax_mono v d ns (visitState st v pq') t dNew hNew' with
                  ⟨dOld', hOld', hle⟩
                have hOldeq : dOld' = some dt := by
                  have : st.distances.lookup t = some dOld' := hOld'
                  rw [hdt] at this
                  injection this with h1
                  exact h1.symm
                subst hOldeq
                cases dNew with
                | none => simp [distLe] at hle
                | some x =>
                  simp only [distLe] at hle
                  refine ⟨du, x, ?_, hNew, by omega⟩
                  rw [hpres u (List.mem_append_left _ hu1)]
                  exact hdu
              · simp only [List.mem_singleton] at hu1
                subst hu1
                have hadjeq : adj = ns := by
                  rw [hadj] at hg
                  injection hg
                subst hadjeq
                have herr : (relaxEdges u d adj (visitState st u pq')).2 = none := by
                  rw [hrel]
                have ht3 : t ∉ (visitState st u pq').visited := by
                  simp only [visitState, List.mem_append, List.mem_singleton]
                  intro hc
                  rcases hc with hc | hc
                  · exact ht1 hc
                  · exact ht2 hc
                rcases relax_establish u d adj (visitState st u pq') herr t w hedge ht3
                  with ⟨dt, hdt, hdtle⟩
                refine ⟨d, dt, ?_, ?_, hdtle⟩
                · rw [hpres u (List.mem_append_right _ (List.mem_singleton.mpr rfl))]
                  exact hlkv
                · rw [← hst3]
                  exact hdt
            · intro hs
              rw [hvis3] at hs
              have hs1 : s ∉ st.visited := fun hc => hs (List.mem_append_left _ hc)
              have hs2 : s ≠ v := by
                intro hc
                exact hs (List.mem_append_right _ (hc ▸ List.mem_singleton.mpr rfl))
              have h0 : (0, s) ∈ pq' := by
                refine popMin_mem_rest hpop _ (hinv.start_pending hs1) ?_
                intro heq
                exact hs2 (congrArg Prod.snd heq)
              rw [← hst3]
              exact relax_pq_mono v d ns (visitState st v pq') (0, s) h0
            · have htr2 : TraceOk g D0 (visitState st v pq').steps
                  (visitState st v pq').distances :=
                traceOk_append hinv.trace_ok
                  (TraceOk.visit st.distances v (st.visited ++ [v]) [] st.distances
                    (TraceOk.nil _))
              have := relax_traceOk g v d ns (visitState st v pq') hlkv
                (List.mem_append_right _ (List.mem_singleton.mpr rfl)) hg
                (fun x hx => hx) htr2
              rw [hst3] at this
              exact this
            · have h1 : visitSeq st3.steps = visitSeq (visitState st v pq').steps := by
                rw [← hst3]
                exact relax_visitSeq v d ns _
              rw [h1]
              have h2 : visitSeq (visitState st v pq').steps =
                  visitSeq st.steps ++ [(v, st.visited ++ [v])] := by
                simp [visitState, visitSeq_append, visitSeq]
              rw [h2, hinv.visit_rec, hvis3, prefixRecord_snoc]
              simp

/-! ### Loop-state reachability and final states -/

/-- `LoopReach g st st'` holds when the main loop, started at state `st`,
passes through state `st'` after zero or more completed iterations. -/
def LoopReach (g : Graph) : EState → EState → Prop :=
  Relation.ReflTransGen (fun a b => loopStep g a = .cont b)

theorem inv_loopReach {g : Graph} {s : Node} {D0 : DistTable} {st st' : EState}
    (hinv : Inv g s D0 st) (h : LoopReach g st st') : Inv g s D0 st' := by
  induction h with
  | refl => exact hinv
  | tail _ h2 ih => exact inv_cont ih h2

theorem fuelInv_loopReach {g : Graph} {st st' : EState}
    (hinv : FuelInv st) (h : LoopReach g st st') : FuelInv st' := by
  induction h with
  | refl => exact hinv
  | tail _ h2 ih => exact (fuelInv_cont ih h2).1

theorem loopStep_done_inv {g : Graph} {st r : EState}
    (h : loopStep g st = .done r) : r = st ∧ st.pq = [] := by
  cases hpop : popMin st.pq with
  | none =>
    rw [loopStep_done g hpop] at h
    injection h with h1
    exact ⟨h1.symm, popMin_eq_none.mp hpop⟩
  | some p =>
    rcases p with ⟨⟨d, v⟩, pq'⟩
    by_cases hv : v ∈ st.visited
    · rw [loopStep_skip g hpop hv] at h
      cases h
    · cases hg : List.lookup v g with
      | none =>
        rw [loopStep_visit_nog g hpop hv hg] at h
        cases h
      | some ns =>
        cases hrel : relaxEdges v d ns (visitState st v pq') with
        | mk st3 err =>
          cases err with
          | none =>
            rw [loopStep_visit_ok g hpop hv hg hrel] at h
            cases h
          | some e =>
            rw [loopStep_visit_err g hpop hv hg hrel] at h
            cases h

theorem dloop_reach {g : Graph} :
    ∀ (fuel : Nat) (st stf : EState) (eo : Option PyErr),
      dloop g fuel st = some (stf, eo) →
      (eo = none → LoopReach g st stf ∧ stf.pq = []) ∧
      (∀ e, eo = some e →
        ∃ stm, LoopReach g st stm ∧ loopStep g stm = .fail stf e) := by
  intro fuel
  induction fuel with
  | zero =>
    intro st stf eo h
    simp [dloop] at h
  | succ n ih =>
    intro st stf eo h
    cases hstep : loopStep g st with
    | done st2 =>
      simp only [dloop, hstep] at h
      rcases loopStep_done_inv hstep with ⟨hst2, hpq⟩
      subst hst2
      injection h with h1
      injection h1 with h2 h3
      subst h2
      subst h3
      refine ⟨fun _ => ⟨Relation.ReflTransGen.refl, hpq⟩, ?_⟩
      intro e he
      cases he
    | fail st2 e2 =>
      simp only [dloop, hstep] at h
      injection h with h1
      injection h1 with h2 h3
      subst h2
      subst h3
      refine ⟨(fun hc => nomatch hc), ?_⟩
      intro e he
      injection he with he2
      subst he2
      exact ⟨st, Relation.ReflTransGen.refl, hstep⟩
    | cont st2 =>
      simp only [dloop, hstep] at h
      rcases ih st2 stf eo h with ⟨h1, h2⟩
      constructor
      · intro he
        rcases h1 he with ⟨hr, hpq⟩
        exact ⟨Relation.ReflTransGen.head hstep hr, hpq⟩
      · intro e he
        rcases h2 e he with ⟨stm, hr, hf⟩
        exact ⟨stm, Relation.ReflTransGen.head hstep hr, hf⟩

theorem final_state {g : Graph} {s : Node} {D0 : DistTable} {stf : EState}
    (hinv : Inv g s D0 stf) (hpq : stf.pq = []) :
    (∀ v c, Reaches g s v c → v ∈ stf.visited) ∧
    (∀ v, v ∉ stf.visited → v ∈ stf.distances.map Prod.fst →
      stf.distances.lookup v = some none) := by
  have hreach : ∀ v c, Reaches g s v c → v ∈ stf.visited := by
    intro v c hre
    induction hre with
    | base =>
      by_contra hs
      have := hinv.start_pending hs
      rw [hpq] at this
      simp at this
    | step hru hadj hedge ih =>
      rename_i u y c' w adj
      by_contra hy
      rcases hinv.crossing u ih adj hadj y w hedge hy with ⟨du, dt, _, hdt, _⟩
      have := hinv.pq_complete y dt hy hdt
      rw [hpq] at this
      simp at this
  refine ⟨hreach, ?_⟩
  intro v hnv hmem
  rcases lookup_isSome_of_mem hmem with ⟨dv, hdv⟩
  cases dv with
  | none => exact hdv
  | some x => exact absurd (hreach v x (hinv.realizable v x hdv)) hnv

/-! ### Facts about the visit record -/

theorem prefixRecord_map_fst (acc l : List Node) :
    (prefixRecord acc l).map Prod.fst = l := by
  induction l generalizing acc with
  | nil => rfl
  | cons x rest ih => simp [prefixRecord, ih]

theorem prefixRecord_length (acc l : List Node) :
    (prefixRecord acc l).length = l.length := by
  induction l generalizing acc with
  | nil => rfl
  | cons x rest ih => simp [prefixRecord, ih]

theorem prefixRecord_mem {acc l : List Node} {c : Node} {vs : List Node}
    (h : (c, vs) ∈ prefixRecord acc l) : c ∈ l ∧ ∀ x ∈ vs, x ∈ acc ++ l := by
  induction l generalizing acc with
  | nil => simp [prefixRecord] at h
  | cons y rest ih =>
    simp only [prefixRecord, List.mem_cons] at h
    rcases h with h | h
    · rw [Prod.mk.injEq] at h
      rcases h with ⟨hc, hvs⟩
      subst hc
      subst hvs
      refine ⟨List.mem_cons_self _ _, ?_⟩
      intro x hx
      rcases List.mem_append.mp hx with hx | hx
      · exact List.mem_append_left _ hx
      · simp only [List.mem_singleton] at hx
        subst hx
        exact List.mem_append_right _ (List.mem_cons_self _ _)
    · rcases ih h with ⟨hc, hvs⟩
      refine ⟨List.mem_cons_of_mem _ hc, ?_⟩
      intro x hx
      rcases List.mem_append.mp (hvs x hx) with hx2 | hx2
      · rcases List.mem_append.mp hx2 with hx3 | hx3
        · exact List.mem_append_left _ hx3
        · simp only [List.mem_singleton] at hx3
          subst hx3
          exact List.mem_append_right _ (List.mem_cons_self _ _)
      · exact List.mem_append_right _ (List.mem_cons_of_mem _ hx2)

theorem prefixRecord_getElem (acc l : List Node) (i : Nat) (hi : i < l.length) :
    (prefixRecord acc l)[i]? = some (l.get ⟨i, hi⟩, acc ++ l.take (i + 1)) := by
  induction l generalizing acc i with
  | nil => simp at hi
  | cons x rest ih =>
    cases i with
    | zero => simp [prefixRecord]
    | succ j =>
      have hj : j < rest.length := by simpa using hi
      simp only [prefixRecord, List.getElem?_cons_succ]
      rw [ih (acc ++ [x]) j hj]
      simp [List.append_assoc]

/-! ### The steps buffer is write-only: frame lemmas -/

/-- State with extra events prepended to its steps buffer. -/
abbrev prependSteps (p : List Step) (st : EState) : EState :=
  { st with steps := p ++ st.steps }

theorem loopStep_frame (g : Graph) (st : EState) (p : List Step) :
    loopStep g (prependSteps p st) =
      (match loopStep g st with
      | .done st' => .done (prependSteps p st')
      | .cont st' => .cont (prependSteps p st')
      | .fail st' e => .fail (prependSteps p st') e) := by
  cases hpop : popMin st.pq with
  | none =>
    rw [loopStep_done g hpop]
    have h2 : loopStep g (prependSteps p st) = .done (prependSteps p st) :=
      loopStep_done g hpop
    rw [h2]
  | some q =>
    rcases q with ⟨⟨d, v⟩, pq'⟩
    by_cases hv : v ∈ st.visited
    · rw [loopStep_skip g hpop hv]
      have h2 := @loopStep_skip (prependSteps p st) d v pq' g hpop hv
      rw [h2]
    · cases hg : List.lookup v g with
      | none =>
        rw [loopStep_visit_nog g hpop hv hg]
        have h2 := @loopStep_visit_nog (prependSteps p st) d v pq' g hpop hv hg
        rw [h2]
        simp [visitState, prependSteps, List.append_assoc]
      | some ns =>
        have hframe := relax_frame v d ns (visitState st v pq') p
        cases hrel : relaxEdges v d ns (visitState st v pq') with
        | mk st3 err =>
          rw [hrel] at hframe
          have hprimed : relaxEdges v d ns (visitState (prependSteps p st) v pq') =
              (prependSteps p st3, err) := by
            have heq : visitState (prependSteps p st) v pq' =
                { distances := (visitState st v pq').distances
                  visited := (visitState st v pq').visited
                  pq := (visitState st v pq').pq
                  steps := p ++ (visitState st v pq').steps } := by
              simp [visitState, prependSteps, List.append_assoc]
            rw [heq]
            exact hframe
          cases err with
          | none =>
            rw [loopStep_visit_ok g hpop hv hg hrel]
            have h2 := @loopStep_visit_ok (prependSteps p st) (prependSteps p st3)
              d v pq' ns g hpop hv hg hprimed
            rw [h2]
          | some e =>
            rw [loopStep_visit_err g hpop hv hg hrel]
            have h2 := @loopStep_visit_err (prependSteps p st) (prependSteps p st3)
              d v e pq' ns g hpop hv hg hprimed
            rw [h2]

theorem dloop_frame (g : Graph) :
    ∀ (fuel : Nat) (st : EState) (p : List Step),
      dloop g fuel (prependSteps p st) =
        Option.map (fun r => (prependSteps p r.1, r.2)) (dloop g fuel st) := by
  intro fuel
  induction fuel with
  | zero => intro st p; rfl
  | succ n ih =>
    intro st p
    rw [show dloop g (n + 1) (prependSteps p st) =
      (match loopStep g (prependSteps p st) with
      | .done st' => some (st', none)
      | .fail st' e => some (st', some e)
      | .cont st' => dloop g n st') from rfl]
    rw [loopStep_frame g st p]
    cases hstep : loopStep g st with
    | done st' => simp [dloop, hstep]
    | fail st' e => simp [dloop, hstep]
    | cont st' =>
      simp only [dloop, hstep]
      exact ih st' p

/-- Running with a non-empty pre-existing steps buffer is running with an
empty buffer and prepending the buffer to the resulting trace. -/
theorem run_frame (g : Graph) (s : Node) (steps0 : List Step) :
    run g s steps0 =
      Option.map (fun r => (prependSteps steps0 r.1, r.2)) (run g s []) := by
  have hinit : initState g s steps0 = prependSteps steps0 (initState g s []) := by
    simp [initState, prependSteps]
  show dloop g (runFuel g (initState g s steps0)) (initState g s steps0) = _
  rw [hinit]
  have hfuel : runFuel g (prependSteps steps0 (initState g s [])) =
      runFuel g (initState g s []) := rfl
  rw [hfuel]
  exact dloop_frame g (runFuel g (initState g s [])) (initState g s []) steps0

/-! ### Consequences of trace well-formedness -/

/-- The distance-table snapshot an event carries. -/
def stepDist : Step → DistTable
  | .visit_node _ D _ => D
  | .relax_edge _ _ _ D => D

/-- Pointwise non-increase from table `Dold` to table `Dnew`. -/
def tableGE (Dold Dnew : DistTable) : Prop :=
  ∀ k dNew, Dnew.lookup k = some dNew →
    ∃ dOld, Dold.lookup k = some dOld ∧ distLe dNew dOld

theorem tableGE_refl (D : DistTable) : tableGE D D :=
  fun _ dNew h => ⟨dNew, h, distLe_refl dNew⟩

theorem tableGE_setD {D : DistTable} {t : Node} {u : Nat} {dOld : Dist}
    (ht : D.lookup t = some dOld) (hlt : distLtB u dOld = true) :
    tableGE D (setD D t (some u)) := by
  intro k dNew h
  by_cases hk : k = t
  · subst hk
    rw [lookup_setD_self] at h
    have h2 : some u = dNew := by injection h
    subst h2
    exact ⟨dOld, ht, distLe_of_ltB hlt⟩
  · rw [lookup_setD_ne _ _ hk] at h
    exact ⟨dNew, h, distLe_refl _⟩

/-- Along a well-formed trace, the distance-table snapshots are pointwise
non-increasing. -/
theorem traceOk_chain {g : Graph} {D Df : DistTable} {l : List Step}
    (h : TraceOk g D l Df) : List.Chain' tableGE (D :: l.map stepDist) := by
  induction h with
  | nil D => simp
  | visit D c vs tl Df htl ih => exact List.Chain'.cons (tableGE_refl D) ih
  | relax D src tgt w df dOld adj tl Df hsrc hadj hmem htgt hlt htl ih =>
    exact List.Chain'.cons (tableGE_setD htgt hlt) ih

/-- Every `relax_edge` event of a well-formed trace records exactly the
candidate `distances[src] + weight` for a real edge, strictly below the
previous value at its target, and snapshots the updated table. -/
theorem traceOk_relax_spec {g : Graph} {D Df : DistTable} {l : List Step}
    (h : TraceOk g D l Df) :
    ∀ i f t u Dsnap, l[i]? = some (.relax_edge f t u Dsnap) →
      ∃ dOld df w adj,
        ((D :: l.map stepDist).getD i []).lookup t = some dOld ∧
        distLtB u dOld = true ∧
        ((D :: l.map stepDist).getD i []).lookup f = some (some df) ∧
        g.lookup f = some adj ∧ (t, w) ∈ adj ∧ u = df + w ∧
        Dsnap = setD ((D :: l.map stepDist).getD i []) t (some u) := by
  induction h with
  | nil D =>
    intro i f t u Dsnap hi
    simp at hi
  | visit D c vs tl Df htl ih =>
    intro i f t u Dsnap hi
    cases i with
    | zero =>
      rw [List.getElem?_cons_zero] at hi
      exact absurd hi (by simp)
    | succ j =>
      rw [List.getElem?_cons_succ] at hi
      have := ih j f t u Dsnap hi
      simpa [stepDist] using this
  | relax D src tgt w df dOld adj tl Df hsrc hadj hmem htgt hlt htl ih =>
    intro i f t u Dsnap hi
    cases i with
    | zero =>
      rw [List.getElem?_cons_zero] at hi
      injection hi with h1
      injection h1 with e1 e2 e3 e4
      subst e1
      subst e2
      subst e3
      subst e4
      exact ⟨dOld, df, w, adj, htgt, hlt, hsrc, hadj, hmem, rfl, rfl⟩
    | succ j =>
      rw [List.getElem?_cons_succ] at hi
      have := ih j f t u Dsnap hi
      simpa [stepDist] using this

/-! ### Error analysis -/

theorem lookup_mem {α : Type} {l : List (Node × α)} {k : Node} {v : α}
    (h : l.lookup k = some v) : (k, v) ∈ l := by
  induction l with
  | nil => simp [List.lookup] at h
  | cons p rest ih =>
    rcases p with ⟨k', v'⟩
    by_cases hk : k = k'
    · subst hk
      simp only [List.lookup, beq_self_eq_true] at h
      have : v' = v := by injection h
      subst this
      exact List.mem_cons_self _ _
    · simp only [List.lookup, beq_false_of_ne hk] at h
      exact List.mem_cons_of_mem _ (ih h)

theorem lookup_none_not_mem {α : Type} {l : List (Node × α)} {k : Node}
    (h : l.lookup k = none) : k ∉ l.map Prod.fst := by
  intro hk
  induction l with
  | nil => simp at hk
  | cons p rest ih =>
    rcases p with ⟨k', v'⟩
    by_cases hk2 : k = k'
    · subst hk2
      simp [List.lookup] at h
    · simp only [List.lookup, beq_false_of_ne hk2] at h
      simp only [List.map_cons, List.mem_cons] at hk
      rcases hk with hk | hk
      · exact hk2 hk
      · exact ih h hk

theorem lookup_eq_none_of_not_mem {α : Type} {l : List (Node × α)} {k : Node}
    (h : k ∉ l.map Prod.fst) : l.lookup k = none := by
  cases hl : l.lookup k with
  | none => rfl
  | some v => exact absurd (mem_of_lookup_isSome hl) h

/-- Closedness: every edge target is a key of the graph. -/
abbrev closedGraph (g : Graph) : Prop :=
  ∀ p ∈ g, ∀ q ∈ p.2, q.1 ∈ g.map Prod.fst

theorem init_keys_of_mem {g : Graph} {s : Node} (steps0 : List Step)
    (hs : s ∈ g.map Prod.fst) :
    (initState g s steps0).distances.map Prod.fst = g.map Prod.fst := by
  simp only [initState]
  rw [setD_map_fst_of_mem]
  · exact map_fst_init g
  · rw [map_fst_init]
    exact hs

/-- A failing iteration: what the state looks like at an uncaught
`KeyError`. -/
theorem inv_fail {g : Graph} {s : Node} {D0 : DistTable} {st stf : EState}
    {e : PyErr} (hinv : Inv g s D0 st) (h : loopStep g st = .fail stf e) :
    TraceOk g D0 stf.steps stf.distances ∧
    visitSeq stf.steps = prefixRecord [] stf.visited ∧
    stf.visited.Nodup ∧
    stf.distances.map Prod.fst = D0.map Prod.fst ∧
    ∃ d v pq', popMin st.pq = some ((d, v), pq') ∧ v ∉ st.visited ∧
      stf.visited = st.visited ++ [v] ∧
      ((g.lookup v = none ∧ e = .keyError v ∧ stf = visitState st v pq') ∨
       (∃ ns, g.lookup v = some ns ∧
         relaxEdges v d ns (visitState st v pq') = (stf, some e))) := by
  cases hpop : popMin st.pq with
  | none =>
    rw [loopStep_done g hpop] at h
    cases h
  | some p =>
    rcases p with ⟨⟨d, v⟩, pq'⟩
    by_cases hv : v ∈ st.visited
    · rw [loopStep_skip g hpop hv] at h
      cases h
    · have hvnodup : (st.visited ++ [v]).Nodup := by
        refine List.Nodup.append hinv.visited_nodup (List.nodup_singleton v) ?_
        intro a ha hb
        simp only [List.mem_singleton] at hb
        subst hb
        exact hv ha
      have htr2 : TraceOk g D0 (visitState st v pq').steps
          (visitState st v pq').distances :=
        traceOk_append hinv.trace_ok
          (TraceOk.visit st.distances v (st.visited ++ [v]) [] st.distances
            (TraceOk.nil _))
      have hvs2 : visitSeq (visitState st v pq').steps =
          prefixRecord [] (st.visited ++ [v]) := by
        have h2 : visitSeq (visitState st v pq').steps =
            visitSeq st.steps ++ [(v, st.visited ++ [v])] := by
          simp [visitState, visitSeq_append, visitSeq]
        rw [h2, hinv.visit_rec, prefixRecord_snoc]
        simp
      cases hg : List.lookup v g with
      | none =>
        rw [loopStep_visit_nog g hpop hv hg] at h
        injection h with h1 h2
        subst h1
        subst h2
        refine ⟨htr2, hvs2, hvnodup, hinv.keys_init, d, v, pq', rfl, hv, rfl, ?_⟩
        exact Or.inl ⟨hg, rfl, rfl⟩
      | some ns =>
        cases hrel : relaxEdges v d ns (visitState st v pq') with
        | mk st3 err =>
          cases err with
          | none =>
            rw [loopStep_visit_ok g hpop hv hg hrel] at h
            cases h
          | some e2 =>
            rw [loopStep_visit_err g hpop hv hg hrel] at h
            injection h with h1 h2
            subst h1
            subst h2
            rcases pop_finalizes hinv hpop hv with ⟨hlkv, hrev, hminv⟩
            have hst3 : (relaxEdges v d ns (visitState st v pq')).1 = st3 := by
              rw [hrel]
            refine ⟨?_, ?_, ?_, ?_, d, v, pq', rfl, hv, ?_, ?_⟩
            · have := relax_traceOk g v d ns (visitState st v pq') hlkv
                (List.mem_append_right _ (List.mem_singleton.mpr rfl)) hg
                (fun x hx => hx) htr2
              rw [hst3] at this
              exact this
            · have h1 : visitSeq st3.steps = visitSeq (visitState st v pq').steps := by
                rw [← hst3]
                exact relax_visitSeq v d ns _
              have h2 : st3.visited = st.visited ++ [v] := by
                rw [← hst3]
                exact relax_visited_eq v d ns _
              rw [h1, hvs2, h2]
            · have h2 : st3.visited = st.visited ++ [v] := by
                rw [← hst3]
                exact relax_visited_eq v d ns _
              rw [h2]
              exact hvnodup
            · have h2 : st3.distances.map Prod.fst = st.distances.map Prod.fst := by
                rw [← hst3]
                exact relax_keys_eq v d ns _
              rw [h2]
              exact hinv.keys_init
            · rw [← hst3]
              exact relax_visited_eq v d ns _
            · exact Or.inr ⟨ns, hg, hrel⟩

/-- Facts holding of the engine state whenever `run` stops, with or without
an error: the trace is well-formed and the visit record mirrors the visited
list. -/
theorem run_facts {g : Graph} {s : Node} (hnd : (g.map Prod.fst).Nodup)
    {stf : EState} {eo : Option PyErr} (h : run g s [] = some (stf, eo)) :
    TraceOk g (initState g s []).distances stf.steps stf.distances ∧
    visitSeq stf.steps = prefixRecord [] stf.visited ∧
    stf.visited.Nodup ∧
    stf.distances.map Prod.fst = (initState g s []).distances.map Prod.fst := by
  rcases dloop_reach _ _ _ _ h with ⟨h1, h2⟩
  cases eo with
  | none =>
    rcases h1 rfl with ⟨hr, _⟩
    have hinv := inv_loopReach (inv_init g s hnd) hr
    exact ⟨hinv.trace_ok, hinv.visit_rec, hinv.visited_nodup, hinv.keys_init⟩
  | some e =>
    rcases h2 e rfl with ⟨stm, hr, hf⟩
    have hinv := inv_loopReach (inv_init g s hnd) hr
    rcases inv_fail hinv hf with ⟨ht, hvs, hnd2, hkeys, _⟩
    exact ⟨ht, hvs, hnd2, hkeys⟩

/-- On a closed graph whose start node is present, `run` never raises. -/
theorem run_no_error {g : Graph} {s : Node} (hnd : (g.map Prod.fst).Nodup)
    (hcl : closedGraph g) (hs : s ∈ g.map Prod.fst)
    {stf : EState} {eo : Option PyErr} (h : run g s [] = some (stf, eo)) :
    eo = none := by
  cases eo with
  | none => rfl
  | some e =>
    exfalso
    rcases dloop_reach _ _ _ _ h with ⟨_, h2⟩
    rcases h2 e rfl with ⟨stm, hr, hf⟩
    have hinv := inv_loopReach (inv_init g s hnd) hr
    have hkeysm : stm.distances.map Prod.fst = g.map Prod.fst := by
      rw [hinv.keys_init]
      exact init_keys_of_mem [] hs
    have hfuel := fuelInv_loopReach (fuelInv_init g s [] hnd) hr
    rcases inv_fail hinv hf with ⟨_, _, _, hkeysf, d, v, pq', hpop, hv, hvisf, hcase⟩
    have hvkeys : v ∈ g.map Prod.fst := by
      rw [← hkeysm]
      exact hfuel.pq_keys (d, v) (popMin_mem hpop)
    rcases hcase with ⟨hgv, _, _⟩ | ⟨ns, hgv, hrel⟩
    · rcases lookup_isSome_of_mem hvkeys with ⟨adj, hadj⟩
      rw [hgv] at hadj
      exact Option.noConfusion hadj
    · have herr : (relaxEdges v d ns (visitState stm v pq')).2 = some e := by
        rw [hrel]
      rcases relax_err v d ns (visitState stm v pq') herr with
        ⟨t, w, he, hmem, hnvis, hlook⟩
      have htkeys : t ∈ g.map Prod.fst :=
        hcl (v, ns) (lookup_mem hgv) (t, w) hmem
      have htkeys2 : t ∈ (relaxEdges v d ns (visitState stm v pq')).1.distances.map
          Prod.fst := by
        rw [relax_keys_eq]
        show t ∈ stm.distances.map Prod.fst
        rw [hkeysm]
        exact htkeys
      rcases lookup_isSome_of_mem htkeys2 with ⟨dv, hdv⟩
      rw [hlook] at hdv
      exact Option.noConfusion hdv

/-- Calling `run` with a start node that is not a graph key: the distance
table still gains the `start: 0` entry, the node is popped, marked visited
and its `visit_node` event recorded, and only then does the adjacency lookup
`self.graph[start_node]` raise a `KeyError` inside the loop. -/
theorem run_unknown_start (g : Graph) (s : Node) (steps0 : List Step)
    (hs : g.lookup s = none) :
    run g s steps0 = some
      ({ distances := setD (g.map (fun p => (p.1, (none : Dist)))) s (some 0)
         visited := [s]
         pq := []
         steps := steps0 ++
           [.visit_node s (setD (g.map (fun p => (p.1, (none : Dist)))) s (some 0))
             [s]] },
       some (.keyError s)) := by
  have hpop : popMin (initState g s steps0).pq = some ((0, s), []) := rfl
  have hv : s ∉ (initState g s steps0).visited := by simp [initState]
  have hstep := loopStep_visit_nog g hpop hv hs
  show dloop g (remFuel g (initState g s steps0) + 1) (initState g s steps0) = _
  rw [show dloop g (remFuel g (initState g s steps0) + 1) (initState g s steps0) =
    (match loopStep g (initState g s steps0) with
      | .done st' => some (st', none)
      | .fail st' e => some (st', some e)
      | .cont st' => dloop g (remFuel g (initState g s steps0)) st') from rfl]
  rw [hstep]
  rfl

theorem mem_visitSeq_of_mem_steps {l : List Step} {c : Node} {D : DistTable}
    {vs : List Node} (h : Step.visit_node c D vs ∈ l) : (c, vs) ∈ visitSeq l := by
  simp only [visitSeq, List.mem_filterMap]
  exact ⟨_, h, rfl⟩

/-! ### The claims -/

/-- C1: for every graph with non-negative edge weights whose key set contains
all referenced nodes and whose start node is present, `run(start_node)`
returns a distance table mapping every node reachable from the start to its
true shortest-path distance; every unreachable node retains the infinity
sentinel and never appears in any `visit_node` event (neither as the visited
node nor in the visited-set snapshot).  In particular, on the example graph
`{A:{B:4,C:1}, B:{A:4,C:2,D:5}, C:{A:1,B:2,D:8}, D:{B:5,C:8}}` started at
`A` the result is `{A:0, B:3, C:1, D:8}`. -/
theorem C1_run_computes_shortest_paths :
    (∀ (g : Graph) (s : Node),
      (g.map Prod.fst).Nodup → closedGraph g → s ∈ g.map Prod.fst →
      ∃ stf, run g s [] = some (stf, none) ∧
        ∀ v, v ∈ g.map Prod.fst →
          ((∃ c, Reaches g s v c) →
            ∃ d, stf.distances.lookup v = some (some d) ∧ Reaches g s v d ∧
              ∀ c, Reaches g s v c → d ≤ c) ∧
          ((¬ ∃ c, Reaches g s v c) →
            stf.distances.lookup v = some none ∧
            ∀ c D vs, Step.visit_node c D vs ∈ stf.steps → c ≠ v ∧ v ∉ vs)) ∧
    (run exGraph "A" []).map (fun p => (p.1.distances, p.2)) =
      some ([("A", some 0), ("B", some 3), ("C", some 1), ("D", some 8)], none) := by
  constructor
  · intro g s hnd hcl hs
    rcases run_terminates g s [] hnd with ⟨⟨stf, eo⟩, hrun⟩
    have heo := run_no_error hnd hcl hs hrun
    subst heo
    refine ⟨stf, hrun, ?_⟩
    rcases dloop_reach _ _ _ _ hrun with ⟨h1, _⟩
    rcases h1 rfl with ⟨hr, hpq⟩
    have hinv := inv_loopReach (inv_init g s hnd) hr
    rcases final_state hinv hpq with ⟨hreach, hunreach⟩
    have hkeys : stf.distances.map Prod.fst = g.map Prod.fst := by
      rw [hinv.keys_init]
      exact init_keys_of_mem [] hs
    intro v hvk
    constructor
    · rintro ⟨c, hc⟩
      exact hinv.visited_final v (hreach v c hc)
    · intro hunre
      have hnv : v ∉ stf.visited := by
        intro hvis
        rcases hinv.visited_final v hvis with ⟨d, _, hre, _⟩
        exact hunre ⟨d, hre⟩
      refine ⟨hunreach v hnv (by rw [hkeys]; exact hvk), ?_⟩
      intro c D vs hmem
      have hcvs := mem_visitSeq_of_mem_steps hmem
      rw [hinv.visit_rec] at hcvs
      rcases prefixRecord_mem hcvs with ⟨hcmem, hvsmem⟩
      constructor
      · intro hceq
        exact hnv (hceq ▸ hcmem)
      · intro hvmem
        have h2 := hvsmem v hvmem
        simp only [List.nil_append] at h2
        exact hnv h2
  · decide

/-- Witness for C1: the general statement applied to the example graph, with
its well-formedness hypotheses discharged by computation. -/
theorem C1_witness :
    (exGraph.map Prod.fst).Nodup ∧ closedGraph exGraph ∧
      "A" ∈ exGraph.map Prod.fst ∧
      (∃ stf, run exGraph "A" [] = some (stf, none) ∧
        ∀ v, v ∈ exGraph.map Prod.fst →
          ((∃ c, Reaches exGraph "A" v c) →
            ∃ d, stf.distances.lookup v = some (some d) ∧
              Reaches exGraph "A" v d ∧
              ∀ c, Reaches exGraph "A" v c → d ≤ c) ∧
          ((¬ ∃ c, Reaches exGraph "A" v c) →
            stf.distances.lookup v = some none ∧
            ∀ c D vs, Step.visit_node c D vs ∈ stf.steps → c ≠ v ∧ v ∉ vs)) :=
  ⟨by decide, by decide, by decide,
    C1_run_computes_shortest_paths.1 exGraph "A" (by decide) (by decide) (by decide)⟩

/-- C9: for every finite graph with non-negative weights, all referenced
nodes present and a start node in the graph, `run` terminates: the frontier
is empty when the loop stops and the call returns a complete (error-free)
result. -/
theorem C9_run_terminates_completely :
    ∀ (g : Graph) (s : Node) (steps0 : List Step),
      (g.map Prod.fst).Nodup → closedGraph g → s ∈ g.map Prod.fst →
      ∃ stf, run g s steps0 = some (stf, none) ∧ stf.pq = [] := by
  intro g s steps0 hnd hcl hs
  rcases run_terminates g s [] hnd with ⟨⟨st0, e0⟩, h0⟩
  have he := run_no_error hnd hcl hs h0
  subst he
  rcases dloop_reach _ _ _ _ h0 with ⟨h1, _⟩
  rcases h1 rfl with ⟨_, hpq⟩
  refine ⟨prependSteps steps0 st0, ?_, hpq⟩
  rw [run_frame, h0]
  rfl

/-- Witness for C9: termination on the example graph. -/
theorem C9_witness :
    (exGraph.map Prod.fst).Nodup ∧ closedGraph exGraph ∧
      "A" ∈ exGraph.map Prod.fst ∧
      ∃ stf, run exGraph "A" [] = some (stf, none) ∧ stf.pq = [] :=
  ⟨by decide, by decide, by decide,
    C9_run_terminates_completely exGraph "A" [] (by decide) (by decide) (by decide)⟩

/-- C10: within a run on a well-formed graph, whenever the loop pops a pair
whose node is not yet visited, the popped tentative distance equals the
node's current distance-table entry, so relaxing with the popped value
computes the same candidate distances as a table lookup would. -/
theorem C10_popped_distance_matches_table :
    ∀ (g : Graph) (s : Node) (st : EState) (d : Nat) (v : Node)
      (pq' : List (Nat × Node)),
      (g.map Prod.fst).Nodup → LoopReach g (initState g s []) st →
      popMin st.pq = some ((d, v), pq') → v ∉ st.visited →
      ∃ dv, st.distances.lookup v = some (some dv) ∧ dv = d ∧
        ∀ w : Weight, dv + w = d + w := by
  intro g s st d v pq' hnd hr hpop hv
  have hinv := inv_loopReach (inv_init g s hnd) hr
  rcases pop_finalizes hinv hpop hv with ⟨hlk, _, _⟩
  exact ⟨d, hlk, rfl, fun _ => rfl⟩

/-- Witness for C10: the initial pop of the example run. -/
theorem C10_witness :
    (exGraph.map Prod.fst).Nodup ∧
      popMin (initState exGraph "A" []).pq = some ((0, "A"), []) ∧
      "A" ∉ (initState exGraph "A" []).visited ∧
      ∃ dv, (initState exGraph "A" []).distances.lookup "A" = some (some dv) ∧
        dv = 0 ∧ ∀ w : Weight, dv + w = 0 + w :=
  ⟨by decide, by decide, by decide,
    C10_popped_distance_matches_table exGraph "A" (initState exGraph "A" []) 0 "A" []
      (by decide) Relation.ReflTransGen.refl (by decide) (by decide)⟩

/-- The dangling-edge example graph: `A`'s edge references the missing
node `X`. -/
def exDang : Graph := [("A", [("X", 1)])]

/-- The final state of `run exDisc "A" []`, verified by computation in the
witnesses below. -/
def exDiscFinal : EState :=
  { distances := [("A", some 0), ("B", some 1), ("C", none)]
    visited := ["A", "B"]
    pq := []
    steps :=
      [.visit_node "A" [("A", some 0), ("B", none), ("C", none)] ["A"],
       .relax_edge "A" "B" 1 [("A", some 0), ("B", some 1), ("C", none)],
       .visit_node "B" [("A", some 0), ("B", some 1), ("C", none)] ["A", "B"]] }

/-- The final state of `run exOne "A" []`. -/
def exOneFinal : EState :=
  { distances := [("A", some 0)]
    visited := ["A"]
    pq := []
    steps := [.visit_node "A" [("A", some 0)] ["A"]] }

/-- C2: every `relax_edge` event of a run is emitted exactly when a candidate
distance strictly improves the destination's recorded distance: the recorded
`updated_distance` equals the source's distance plus the edge weight at the
time of the event and is strictly below the destination's previous recorded
distance, the event snapshots the table updated to it; and when the candidate
is not strictly smaller (or the neighbor is already visited) the relaxation
loop emits no event and performs no update. -/
theorem C2_relax_events_exactly_on_improvement :
    (∀ (g : Graph) (s : Node) (stf : EState) (eo : Option PyErr),
      (g.map Prod.fst).Nodup → run g s [] = some (stf, eo) →
      ∀ i f t u Dsnap, stf.steps[i]? = some (.relax_edge f t u Dsnap) →
        ∃ dOld df w adj,
          (((initState g s []).distances :: stf.steps.map stepDist).getD i
            []).lookup t = some dOld ∧
          distLtB u dOld = true ∧
          (((initState g s []).distances :: stf.steps.map stepDist).getD i
            []).lookup f = some (some df) ∧
          g.lookup f = some adj ∧ (t, w) ∈ adj ∧ u = df + w ∧
          Dsnap = setD (((initState g s []).distances ::
            stf.steps.map stepDist).getD i []) t (some u)) ∧
    (∀ (cn : Node) (cd : Nat) (t : Node) (w : Nat) (rest : List (Node × Weight))
      (st : EState), t ∈ st.visited →
      relaxEdges cn cd ((t, w) :: rest) st = relaxEdges cn cd rest st) ∧
    (∀ (cn : Node) (cd : Nat) (t : Node) (w : Nat) (rest : List (Node × Weight))
      (st : EState) (dOld : Dist), t ∉ st.visited →
      st.distances.lookup t = some dOld → distLtB (cd + w) dOld = false →
      relaxEdges cn cd ((t, w) :: rest) st = relaxEdges cn cd rest st) := by
  refine ⟨?_, ?_, ?_⟩
  · intro g s stf eo hnd hrun i f t u Dsnap hi
    exact traceOk_relax_spec (run_facts hnd hrun).1 i f t u Dsnap hi
  · intro cn cd t w rest st hv
    exact relaxEdges_cons_visited cn cd w rest hv
  · intro cn cd t w rest st dOld hv hl himp
    exact relaxEdges_cons_noimp cn cd w rest hv hl himp

/-- Witness for C2: the disconnected example run, hypotheses discharged by
computation. -/
theorem C2_witness :
    (exDisc.map Prod.fst).Nodup ∧
      run exDisc "A" [] = some (exDiscFinal, none) ∧
      ∀ i f t u Dsnap, exDiscFinal.steps[i]? = some (.relax_edge f t u Dsnap) →
        ∃ dOld df w adj,
          (((initState exDisc "A" []).distances ::
            exDiscFinal.steps.map stepDist).getD i []).lookup t = some dOld ∧
          distLtB u dOld = true ∧
          (((initState exDisc "A" []).distances ::
            exDiscFinal.steps.map stepDist).getD i []).lookup f =
              some (some df) ∧
          exDisc.lookup f = some adj ∧ (t, w) ∈ adj ∧ u = df + w ∧
          Dsnap = setD (((initState exDisc "A" []).distances ::
            exDiscFinal.steps.map stepDist).getD i []) t (some u) :=
  ⟨by decide, by decide,
    C2_relax_events_exactly_on_improvement.1 exDisc "A" exDiscFinal none
      (by decide) (by decide)⟩

/-- The number of `visit_node` events whose current node is `v`. -/
def countVisits (l : List Step) (v : Node) : Nat :=
  (l.filter fun ev =>
    match ev with
    | .visit_node c _ _ => c == v
    | _ => false).length

/-- The steps returned by a run, or `[]` if it did not finish. -/
def runSteps (g : Graph) (s : Node) : List Step :=
  match run g s [] with
  | some (st, _) => st.steps
  | none => []

/-- C3 counterexample: on the spec's disconnected scenario
`{A:{B:1}, B:{}, C:{}}` started at `A`, the unreachable node `C` appears in
zero `visit_node` events, so it is false that every node appears as the
current node of exactly one `visit_node` event. -/
theorem C3_counterexample :
    ¬ (∀ v ∈ exDisc.map Prod.fst, countVisits (runSteps exDisc "A") v = 1) := by
  decide

/-- C3 (amended): within a single run, each node appears as the
`current_node` of at most one `visit_node` event (so each visited node of
exactly one, and unreachable nodes of none), and the visited-node sets
recorded in successive `visit_node` events strictly grow, the i-th event
recording exactly the first `i+1` visited nodes. -/
theorem C3_visit_once_and_strict_growth :
    ∀ (g : Graph) (s : Node) (stf : EState) (eo : Option PyErr),
      (g.map Prod.fst).Nodup → run g s [] = some (stf, eo) →
      (∀ v, ((visitSeq stf.steps).map Prod.fst).count v ≤ 1) ∧
      ∀ i c vs, (visitSeq stf.steps)[i]? = some (c, vs) →
        vs.length = i + 1 ∧
        vs = ((visitSeq stf.steps).map Prod.fst).take (i + 1) := by
  intro g s stf eo hnd hrun
  rcases run_facts hnd hrun with ⟨_, hvr, hvnd, _⟩
  constructor
  · intro v
    rw [hvr, prefixRecord_map_fst]
    exact List.nodup_iff_count_le_one.mp hvnd v
  · intro i c vs hi
    rw [hvr] at hi
    have hilen : i < stf.visited.length := by
      rcases List.getElem?_eq_some.mp hi with ⟨hlt, _⟩
      rw [prefixRecord_length] at hlt
      exact hlt
    rw [prefixRecord_getElem [] stf.visited i hilen] at hi
    injection hi with h1
    rw [Prod.mk.injEq] at h1
    rcases h1 with ⟨_, hvs⟩
    have hvs2 : vs = stf.visited.take (i + 1) := by
      rw [← hvs]
      simp
    constructor
    · rw [hvs2, List.length_take]
      omega
    · rw [hvs2, hvr, prefixRecord_map_fst]

/-- Witness for C3: the disconnected example run. -/
theorem C3_witness :
    (exDisc.map Prod.fst).Nodup ∧
      run exDisc "A" [] = some (exDiscFinal, none) ∧
      ((∀ v, ((visitSeq exDiscFinal.steps).map Prod.fst).count v ≤ 1) ∧
       ∀ i c vs, (visitSeq exDiscFinal.steps)[i]? = some (c, vs) →
         vs.length = i + 1 ∧
         vs = ((visitSeq exDiscFinal.steps).map Prod.fst).take (i + 1)) :=
  ⟨by decide, by decide,
    C3_visit_once_and_strict_growth exDisc "A" exDiscFinal none (by decide) (by decide)⟩

/-- C4: within a single run, the sequence of distance-table snapshots across
the trace is pointwise non-increasing, and every update (each `relax_edge`
event) strictly decreases the affected node's recorded distance. -/
theorem C4_distances_monotone_nonincreasing :
    ∀ (g : Graph) (s : Node) (stf : EState) (eo : Option PyErr),
      (g.map Prod.fst).Nodup → run g s [] = some (stf, eo) →
      List.Chain' tableGE
        ((initState g s []).distances :: stf.steps.map stepDist) ∧
      ∀ i f t u Dsnap, stf.steps[i]? = some (.relax_edge f t u Dsnap) →
        ∃ dOld, (((initState g s []).distances ::
          stf.steps.map stepDist).getD i []).lookup t = some dOld ∧
          distLtB u dOld = true := by
  intro g s stf eo hnd hrun
  have h := (run_facts hnd hrun).1
  refine ⟨traceOk_chain h, ?_⟩
  intro i f t u Dsnap hi
  rcases traceOk_relax_spec h i f t u Dsnap hi with ⟨dOld, df, w, adj, h1, h2, _⟩
  exact ⟨dOld, h1, h2⟩

/-- Witness for C4: the disconnected example run. -/
theorem C4_witness :
    (exDisc.map Prod.fst).Nodup ∧
      run exDisc "A" [] = some (exDiscFinal, none) ∧
      (List.Chain' tableGE
        ((initState exDisc "A" []).distances :: exDiscFinal.steps.map stepDist) ∧
       ∀ i f t u Dsnap, exDiscFinal.steps[i]? = some (.relax_edge f t u Dsnap) →
         ∃ dOld, (((initState exDisc "A" []).distances ::
           exDiscFinal.steps.map stepDist).getD i []).lookup t = some dOld ∧
           distLtB u dOld = true) :=
  ⟨by decide, by decide,
    C4_distances_monotone_nonincreasing exDisc "A" exDiscFinal none
      (by decide) (by decide)⟩

/-- C5 counterexample: calling `run` with a start node absent from the graph
does not report an error before mutating the working state: on the graph
`{A:{}}` with start `B`, the returned engine state records a mutated trace
and visited set (and the raised error is a generic `KeyError`, from inside
the main loop), so the claim as stated is false. -/
theorem C5_counterexample :
    ¬ (∀ (stf : EState) (eo : Option PyErr),
        run exOne "B" [] = some (stf, eo) → stf.steps = [] ∧ stf.visited = []) := by
  intro hcl
  have h := hcl
    { distances := [("A", none), ("B", some 0)]
      visited := ["B"]
      pq := []
      steps := [.visit_node "B" [("A", none), ("B", some 0)] ["B"]] }
    (some (.keyError "B")) (by decide)
  exact absurd h.1 (by decide)

/-- C5 (amended): if `run(start_node)` is called with a start node that is
not a key of the graph, the call fails with a generic lookup failure
(`KeyError(start_node)`) raised inside the main loop, after the working
state has already been mutated: the distance table has gained a `0` entry
for the start node, the node has been marked visited, and a `visit_node`
event has been appended to the trace. -/
theorem C5_unknown_start_is_late_lookup_failure :
    ∀ (g : Graph) (s : Node) (steps0 : List Step), g.lookup s = none →
      run g s steps0 = some
        ({ distances := setD (g.map (fun p => (p.1, (none : Dist)))) s (some 0)
           visited := [s]
           pq := []
           steps := steps0 ++
             [.visit_node s
               (setD (g.map (fun p => (p.1, (none : Dist)))) s (some 0)) [s]] },
         some (.keyError s)) :=
  fun g s steps0 hs => run_unknown_start g s steps0 hs

/-- Witness for C5: the single-node graph with the absent start `B`. -/
theorem C5_witness :
    exOne.lookup "B" = none ∧
      run exOne "B" [] = some
        ({ distances := setD (exOne.map (fun p => (p.1, (none : Dist)))) "B"
             (some 0)
           visited := ["B"]
           pq := []
           steps := [.visit_node "B"
             (setD (exOne.map (fun p => (p.1, (none : Dist)))) "B" (some 0))
             ["B"]] },
         some (.keyError "B")) :=
  ⟨by decide, C5_unknown_start_is_late_lookup_failure exOne "B" [] (by decide)⟩

/-- C6: a dangling edge reference is reported at the moment it is
encountered during relaxation and aborts the run: the relaxation loop
returns the `KeyError` for the first unvisited neighbor missing from the
distance table without touching the state, and a run from a present start
node that ends in an error always identifies such a neighbor — absent from
the graph's node set, referenced by an edge of a visited node, and with no
entry silently created for it. -/
theorem C6_dangling_edge_reported_and_aborts :
    (∀ (cn : Node) (cd : Nat) (t : Node) (w : Nat) (rest : List (Node × Weight))
      (st : EState), t ∉ st.visited → st.distances.lookup t = none →
      relaxEdges cn cd ((t, w) :: rest) st = (st, some (.keyError t))) ∧
    (∀ (g : Graph) (s : Node) (stf : EState) (e : PyErr),
      (g.map Prod.fst).Nodup → s ∈ g.map Prod.fst →
      run g s [] = some (stf, some e) →
      ∃ t, e = .keyError t ∧ g.lookup t = none ∧
        stf.distances.lookup t = none ∧
        ∃ u adj w, u ∈ stf.visited ∧ g.lookup u = some adj ∧ (t, w) ∈ adj) := by
  constructor
  · intro cn cd t w rest st hv hl
    exact relaxEdges_cons_dangling cn cd w rest hv hl
  · intro g s stf e hnd hs hrun
    rcases dloop_reach _ _ _ _ hrun with ⟨_, h2⟩
    rcases h2 e rfl with ⟨stm, hr, hf⟩
    have hinv := inv_loopReach (inv_init g s hnd) hr
    have hkeysm : stm.distances.map Prod.fst = g.map Prod.fst := by
      rw [hinv.keys_init]
      exact init_keys_of_mem [] hs
    have hfuel := fuelInv_loopReach (fuelInv_init g s [] hnd) hr
    rcases inv_fail hinv hf with ⟨_, _, _, hkeysf, d, v, pq', hpop, hv, hvisf, hcase⟩
    have hvkeys : v ∈ g.map Prod.fst := by
      rw [← hkeysm]
      exact hfuel.pq_keys (d, v) (popMin_mem hpop)
    rcases hcase with ⟨hgv, _, _⟩ | ⟨ns, hgv, hrel⟩
    · rcases lookup_isSome_of_mem hvkeys with ⟨adj, hadj⟩
      rw [hgv] at hadj
      exact Option.noConfusion hadj
    · have herr : (relaxEdges v d ns (visitState stm v pq')).2 = some e := by
        rw [hrel]
      rcases relax_err v d ns (visitState stm v pq') herr with
        ⟨t, w, he, hmem, hnvis, hlook⟩
      have hstf : (relaxEdges v d ns (visitState stm v pq')).1 = stf := by
        rw [hrel]
      rw [hstf] at hlook
      have htnk : t ∉ g.map Prod.fst := by
        have h3 := lookup_none_not_mem hlook
        rw [hkeysf, init_keys_of_mem [] hs] at h3
        exact h3
      refine ⟨t, he, lookup_eq_none_of_not_mem htnk, hlook, v, ns, w, ?_, hgv, hmem⟩
      rw [hvisf]
      exact List.mem_append_right _ (List.mem_singleton.mpr rfl)

/-- Witness for C6: the dangling-edge example graph `{A:{X:1}}`. -/
theorem C6_witness :
    (exDang.map Prod.fst).Nodup ∧ "A" ∈ exDang.map Prod.fst ∧
      run exDang "A" [] = some
        ({ distances := [("A", some 0)]
           visited := ["A"]
           pq := []
           steps := [.visit_node "A" [("A", some 0)] ["A"]] },
         some (.keyError "X")) ∧
      ∃ t, PyErr.keyError "X" = .keyError t ∧ exDang.lookup t = none ∧
        (([("A", some 0)] : DistTable)).lookup t = none ∧
        ∃ u adj w, u ∈ (["A"] : List Node) ∧ exDang.lookup u = some adj ∧
          (t, w) ∈ adj :=
  ⟨by decide, by decide, by decide,
    C6_dangling_edge_reported_and_aborts.2 exDang "A"
      { distances := [("A", some 0)]
        visited := ["A"]
        pq := []
        steps := [.visit_node "A" [("A", some 0)] ["A"]] }
      (.keyError "X") (by decide) (by decide) (by decide)⟩

/-- C7: the engine-owned trace buffer is never cleared: a second `run` on
the same engine returns a trace equal to the first run's events followed by
the second run's events (which, the algorithm being deterministic, repeat
the first run's). -/
theorem C7_trace_accumulates_across_runs :
    ∀ (g : Graph) (s : Node) (stf : EState) (eo : Option PyErr),
      run g s [] = some (stf, eo) →
      ∃ stf2, run g s stf.steps = some (stf2, eo) ∧
        stf2.steps = stf.steps ++ stf.steps ∧
        stf2.distances = stf.distances ∧ stf2.visited = stf.visited := by
  intro g s stf eo hrun
  refine ⟨prependSteps stf.steps stf, ?_, rfl, rfl, rfl⟩
  rw [run_frame, hrun]
  rfl

/-- Witness for C7: two consecutive runs on the single-node graph. -/
theorem C7_witness :
    run exOne "A" [] = some (exOneFinal, none) ∧
      ∃ stf2, run exOne "A" exOneFinal.steps = some (stf2, none) ∧
        stf2.steps = exOneFinal.steps ++ exOneFinal.steps ∧
        stf2.distances = exOneFinal.distances ∧
        stf2.visited = exOneFinal.visited :=
  ⟨by decide, C7_trace_accumulates_across_runs exOne "A" exOneFinal none (by decide)⟩

/-- C8: with fresh engine instances, running twice from the same start node
on the unmodified graph yields identical distance tables, traces and
outcomes; frontier ties between equal tentative distances are broken
deterministically: each pop returns an entry minimal under the lexicographic
`(distance, node identifier)` order `pqLt`. -/
theorem C8_runs_are_deterministic :
    (∀ (g : Graph) (s : Node) (st1 st2 : EState) (e1 e2 : Option PyErr),
      run g s [] = some (st1, e1) → run g s [] = some (st2, e2) →
      st1.distances = st2.distances ∧ st1.steps = st2.steps ∧ e1 = e2) ∧
    (∀ (l : List (Nat × Node)) (m : Nat × Node) (r : List (Nat × Node)),
      popMin l = some (m, r) → m ∈ l ∧ ∀ x ∈ l, pqLt x m = false) := by
  constructor
  · intro g s st1 st2 e1 e2 h1 h2
    rw [h1] at h2
    injection h2 with h3
    injection h3 with h4 h5
    exact ⟨by rw [h4], by rw [h4], h5⟩
  · intro l m r h
    exact ⟨popMin_mem h, popMin_min h⟩

/-- Witness for C8: two runs on the single-node graph. -/
theorem C8_witness :
    run exOne "A" [] = some (exOneFinal, none) ∧
      exOneFinal.distances = exOneFinal.distances ∧
      exOneFinal.steps = exOneFinal.steps ∧ (none : Option PyErr) = none :=
  ⟨by decide,
    C8_runs_are_deterministic.1 exOne "A" exOneFinal exOneFinal none none
      (by decide) (by decide)⟩

end DijkstraViz
